import Mathlib

set_option maxRecDepth 100000

/-!
A verification development for the 2D vector path engine of the canvas
repository (src/path.go): the path command model, the builder operations,
the path algebra (Copy, Append, Translate, Split, Reverse), Bezier curve
flattening, and the SVG path data codec. Machine floats are modelled by
rational numbers. Helper functions of the repository that live outside the
inspected source file (Equal, Point.Interpolate, ftos, the numeric scanner
of the parsing library) are modelled from the specification and marked as
such in their doc comments. The loops of the source are embedded as fuel
indexed or structurally recursive functions; out of range reads of the Go
slices are totalized with default values, and no theorem below depends on
the value of an out of range read.
-/

unseal Rat.add Rat.sub Rat.mul Rat.inv Nat.gcd

namespace Canvas

/-- Path command tags, from src/path.go (PathCmd and its constants). -/
inductive PathCmd where
  | MoveToCmd
  | LineToCmd
  | QuadToCmd
  | CubeToCmd
  | ArcToCmd
  | CloseCmd
deriving DecidableEq

open PathCmd

/-- Number of coordinates a command carries, from src/path.go (PathCmd.Len). -/
def PathCmd.Len : PathCmd → Nat
  | MoveToCmd => 2
  | LineToCmd => 2
  | CloseCmd => 2
  | QuadToCmd => 4
  | CubeToCmd => 6
  | ArcToCmd => 7

/-- A 2D vector path, from src/path.go (struct Path): parallel command and
coordinate buffers plus the cached coordinates of the last MoveTo. -/
structure Path where
  cmds : List PathCmd
  d : List ℚ
  x0 : ℚ
  y0 : ℚ
deriving DecidableEq

/-- The epsilon 1e-10 of the spec. -/
def eps : ℚ := 1 / 10000000000

/-- Modelled from the spec: the numeric comparison helper Equal of the
repository (not under src/), an absolute difference below the small
epsilon 1e-10, used for all approximate comparisons throughout (the
absolute value is spelled as a two sided bound). -/
def Equal (a b : ℚ) : Bool := decide (-eps < a - b ∧ a - b < eps)

/-- A 2D point, helper type of the repository used by the flattener. -/
structure Point where
  x : ℚ
  y : ℚ
deriving DecidableEq

/-- Modelled from the spec: Point.Interpolate of the repository (not under
src/), linear interpolation a + t * (b - a) in each coordinate, matching
the elevation rule c1 = start + 2/3 * (ctrl - start) of the spec. -/
def Point.Interpolate (a b : Point) (t : ℚ) : Point :=
  ⟨a.x + t * (b.x - a.x), a.y + t * (b.y - a.y)⟩

/-- IsEmpty, from src/path.go. -/
def Path.IsEmpty (p : Path) : Bool := p.cmds.length == 0

/-- Copy, from src/path.go: a fresh path with the same buffers and cache. -/
def Path.Copy (p : Path) : Path := ⟨p.cmds, p.d, p.x0, p.y0⟩

/-- Pos, from src/path.go: the end point of the last command. -/
def Path.Pos (p : Path) : ℚ × ℚ :=
  if 1 < p.d.length then (p.d.getD (p.d.length - 2) 0, p.d.getD (p.d.length - 1) 0)
  else (0, 0)

/-- Start, from src/path.go: the cached start of the current subpath. -/
def Path.Start (p : Path) : ℚ × ℚ := (p.x0, p.y0)

/-- MoveTo, from src/path.go. -/
def Path.MoveTo (p : Path) (x y : ℚ) : Path :=
  ⟨p.cmds ++ [MoveToCmd], p.d ++ [x, y], x, y⟩

/-- LineTo, from src/path.go. -/
def Path.LineTo (p : Path) (x y : ℚ) : Path :=
  ⟨p.cmds ++ [LineToCmd], p.d ++ [x, y], p.x0, p.y0⟩

/-- QuadTo, from src/path.go. -/
def Path.QuadTo (p : Path) (x1 y1 x y : ℚ) : Path :=
  ⟨p.cmds ++ [QuadToCmd], p.d ++ [x1, y1, x, y], p.x0, p.y0⟩

/-- CubeTo, from src/path.go. -/
def Path.CubeTo (p : Path) (x1 y1 x2 y2 x y : ℚ) : Path :=
  ⟨p.cmds ++ [CubeToCmd], p.d ++ [x1, y1, x2, y2, x, y], p.x0, p.y0⟩

/-- ArcTo, from src/path.go: boolean flags are stored as 0 or 1. -/
def Path.ArcTo (p : Path) (rx ry rot : ℚ) (large sweep : Bool) (x y : ℚ) : Path :=
  ⟨p.cmds ++ [ArcToCmd],
   p.d ++ [rx, ry, rot, if large then 1 else 0, if sweep then 1 else 0, x, y],
   p.x0, p.y0⟩

/-- Close, from src/path.go: the payload is the cached subpath start. -/
def Path.Close (p : Path) : Path :=
  ⟨p.cmds ++ [CloseCmd], p.d ++ [p.x0, p.y0], p.x0, p.y0⟩

/-- Rect, from src/path.go. -/
def Path.Rect (p : Path) (x y w h : ℚ) : Path :=
  ((((p.MoveTo x y).LineTo (x + w) y).LineTo (x + w) (y + h)).LineTo x (y + h)).Close

/-- Ellipse, from src/path.go. -/
def Path.Ellipse (p : Path) (x y rx ry : ℚ) : Path :=
  (((p.MoveTo (x + rx) y).ArcTo rx ry 0 false false (x - rx) y).ArcTo rx ry 0 false false
      (x + rx) y).Close

/-- Append, from src/path.go: concatenates q onto p, dropping a leading
MoveTo of q whose point coincides with the end point of p. -/
def Path.Append (p q : Path) : Path :=
  if q.cmds.length = 0 then p
  else
    let q' : Path :=
      if 0 < p.cmds.length ∧ q.cmds.head? = some MoveToCmd then
        let xa := p.d.getD (p.d.length - 2) 0
        let ya := p.d.getD (p.d.length - 1) 0
        let xb := q.d.getD 0 0
        let yb := q.d.getD 1 0
        if Equal xa xb && Equal ya yb then ⟨q.cmds.drop 1, q.d.drop 2, q.x0, q.y0⟩ else q
      else q
    ⟨p.cmds ++ q'.cmds, p.d ++ q'.d, q.x0, q.y0⟩

/-- Coordinate translation pass of Translate, from src/path.go: walks the
commands, shifting the stored points of each command (for ArcTo only the
end point); coordinates past the commands are left untouched. -/
def translateD (x y : ℚ) : List PathCmd → List ℚ → List ℚ
  | MoveToCmd :: cs, a :: b :: d => (a + x) :: (b + y) :: translateD x y cs d
  | LineToCmd :: cs, a :: b :: d => (a + x) :: (b + y) :: translateD x y cs d
  | CloseCmd :: cs, a :: b :: d => (a + x) :: (b + y) :: translateD x y cs d
  | QuadToCmd :: cs, a :: b :: c :: e :: d => (a + x) :: (b + y) :: (c + x) :: (e + y) ::
      translateD x y cs d
  | CubeToCmd :: cs, a :: b :: c :: e :: f :: g :: d => (a + x) :: (b + y) :: (c + x) ::
      (e + y) :: (f + x) :: (g + y) :: translateD x y cs d
  | ArcToCmd :: cs, rx :: ry :: rot :: fl :: fs :: a :: b :: d => rx :: ry :: rot :: fl ::
      fs :: (a + x) :: (b + y) :: translateD x y cs d
  | _, d => d

/-- Translate, from src/path.go: copies p, synthesizes a leading MoveTo(0,0)
when the path does not start with MoveTo, then shifts every point. -/
def Path.Translate (p : Path) (x y : ℚ) : Path :=
  let p := p.Copy
  let p : Path :=
    if 0 < p.cmds.length ∧ p.cmds.head? ≠ some MoveToCmd then
      ⟨MoveToCmd :: p.cmds, 0 :: 0 :: p.d, p.x0, p.y0⟩
    else p
  ⟨p.cmds, translateD x y p.cmds p.d, p.x0, p.y0⟩

/-- Sum of command arities of a command list. -/
def aritySum (cs : List PathCmd) : Nat := (cs.map PathCmd.Len).sum

/-- The loop of Split, from src/path.go, processing the commands from
position jcmd on (the first argument tracks the remaining commands);
icmd and i mark the start of the open fragment, j the coordinate offset
of jcmd, closed whether the previous command was a Close, and x0 y0 the
coordinates of the last MoveTo seen. -/
def splitGo (p : Path) : List PathCmd → Nat → Nat → Nat → Nat → Bool → ℚ → ℚ → List Path
  | [], jcmd, icmd, i, j, _, x0, y0 =>
    if i < j then [⟨(p.cmds.drop icmd).take (jcmd - icmd), (p.d.drop i).take (j - i), x0, y0⟩]
    else []
  | cmd :: rest, jcmd, icmd, i, j, closed, x0, y0 =>
    let push : Bool := (decide (i < j) && decide (cmd = MoveToCmd)) || closed
    let frag : List Path :=
      if push then [⟨(p.cmds.drop icmd).take (jcmd - icmd), (p.d.drop i).take (j - i), x0, y0⟩]
      else []
    let icmd' := if push then jcmd else icmd
    let i' := if push then j else i
    let closed1 : Bool := if push then false else closed
    match cmd with
    | MoveToCmd =>
        frag ++ splitGo p rest (jcmd + 1) icmd' i' (j + 2) closed1 (p.d.getD j 0)
          (p.d.getD (j + 1) 0)
    | LineToCmd => frag ++ splitGo p rest (jcmd + 1) icmd' i' (j + 2) closed1 x0 y0
    | QuadToCmd => frag ++ splitGo p rest (jcmd + 1) icmd' i' (j + 4) closed1 x0 y0
    | CubeToCmd => frag ++ splitGo p rest (jcmd + 1) icmd' i' (j + 6) closed1 x0 y0
    | ArcToCmd => frag ++ splitGo p rest (jcmd + 1) icmd' i' (j + 7) closed1 x0 y0
    | CloseCmd => frag ++ splitGo p rest (jcmd + 1) icmd' i' (j + 2) true x0 y0

/-- Split, from src/path.go: partitions the path into independent subpaths
on MoveTo boundaries and after Close commands. -/
def Path.Split (p : Path) : List Path := splitGo p p.cmds 0 0 0 0 false 0 0

/-- prevEnd, from src/path.go: the last coordinate pair of a buffer. -/
def prevEnd (d : List ℚ) : ℚ × ℚ :=
  if 1 < d.length then (d.getD (d.length - 2) 0, d.getD (d.length - 1) 0) else (0, 0)

/-- State of the Reverse loop of src/path.go: the reversed path built so
far, the coordinate offset of the command being processed, the reversed
position before the current command, the end point of the previous
(further down) command, and the pending closed flag. -/
structure RevState where
  ip : Path
  i : Nat
  xStart : ℚ
  yStart : ℚ
  xEnd : ℚ
  yEnd : ℚ
  closed : Bool
deriving DecidableEq

/-- The loop of Reverse, from src/path.go, processing the commands of p
from last to first; the Nat argument is the number of commands still to
process, so iteration k + 1 handles the command at index k. -/
def reverseLoop (p : Path) : Nat → RevState → RevState
  | 0, s => s
  | k + 1, s =>
    let icmd := k
    let s' : RevState :=
      match p.cmds.getD icmd CloseCmd with
      | CloseCmd =>
        let i := s.i - 2
        let e := prevEnd (p.d.take i)
        let ip := if !Equal s.xStart e.1 || !Equal s.yStart e.2 then s.ip.LineTo e.1 e.2
          else s.ip
        ⟨ip, i, s.xStart, s.yStart, e.1, e.2, true⟩
      | MoveToCmd =>
        let i := s.i - 2
        let ip := if s.closed then s.ip.Close else s.ip
        let e := prevEnd (p.d.take i)
        let ip := if !Equal e.1 0 || !Equal e.2 0 then ip.MoveTo e.1 e.2 else ip
        ⟨ip, i, s.xStart, s.yStart, e.1, e.2, false⟩
      | LineToCmd =>
        let i := s.i - 2
        if s.closed && (decide (icmd = 0) || decide (p.cmds.getD (icmd - 1) CloseCmd = MoveToCmd)) then
          ⟨s.ip.Close, i, s.xStart, s.yStart, s.xEnd, s.yEnd, false⟩
        else
          let e := prevEnd (p.d.take i)
          ⟨s.ip.LineTo e.1 e.2, i, s.xStart, s.yStart, e.1, e.2, s.closed⟩
      | QuadToCmd =>
        let i := s.i - 4
        let x1 := p.d.getD i 0
        let y1 := p.d.getD (i + 1) 0
        let e := prevEnd (p.d.take i)
        ⟨s.ip.QuadTo x1 y1 e.1 e.2, i, s.xStart, s.yStart, e.1, e.2, s.closed⟩
      | CubeToCmd =>
        let i := s.i - 6
        let x1 := p.d.getD (i + 2) 0
        let y1 := p.d.getD (i + 3) 0
        let x2 := p.d.getD i 0
        let y2 := p.d.getD (i + 1) 0
        let e := prevEnd (p.d.take i)
        ⟨s.ip.CubeTo x1 y1 x2 y2 e.1 e.2, i, s.xStart, s.yStart, e.1, e.2, s.closed⟩
      | ArcToCmd =>
        let i := s.i - 7
        let rx := p.d.getD i 0
        let ry := p.d.getD (i + 1) 0
        let rot := p.d.getD (i + 2) 0
        let largeArc := p.d.getD (i + 3) 0
        let sweep0 := p.d.getD (i + 4) 0
        let sweep : ℚ := if sweep0 = 0 then 1 else 0
        let e := prevEnd (p.d.take i)
        ⟨s.ip.ArcTo rx ry rot (decide (largeArc = 1)) (decide (sweep = 1)) e.1 e.2, i,
         s.xStart, s.yStart, e.1, e.2, s.closed⟩
    reverseLoop p k ⟨s'.ip, s'.i, s'.xEnd, s'.yEnd, s'.xEnd, s'.yEnd, s'.closed⟩

/-- Reverse, from src/path.go: the same path traversed in the opposite
direction. -/
def Path.Reverse (p : Path) : Path :=
  if p.cmds.length = 0 then ⟨[], [], 0, 0⟩
  else
    let e := prevEnd p.d
    let ip : Path := ⟨[], [], 0, 0⟩
    let ip := if !Equal e.1 0 || !Equal e.2 0 then ip.MoveTo e.1 e.2 else ip
    let s := reverseLoop p p.cmds.length ⟨ip, p.d.length, e.1, e.2, e.1, e.2, false⟩
    if s.closed then s.ip.Close else s.ip

/-- replaceCmd, from src/path.go: splices the path q in place of the single
command at position icmd (coordinate offset i); the index updates of the
source are folded into the flattening step below. -/
def Path.replaceCmd (p : Path) (icmd i : Nat) (q : Path) : Path :=
  let n := (p.cmds.getD icmd CloseCmd).Len
  ⟨p.cmds.take icmd ++ q.cmds ++ p.cmds.drop (icmd + 1),
   p.d.take i ++ q.d ++ p.d.drop (i + n), p.x0, p.y0⟩

/-- State of the FlattenBeziers loop of src/path.go. -/
structure FlatState where
  p : Path
  icmd : Nat
  i : Nat
  start : Point
deriving DecidableEq

/-- One iteration of the FlattenBeziers loop of src/path.go, with the
external cubic flattening primitive passed as the argument F (its contract
is given by the spec only; its body is not part of the inspected source).
The source increments icmd by len(q.cmds) - 1 inside replaceCmd and by one
more at the loop head; the two updates are combined here. A state whose
icmd is past the commands is returned unchanged. -/
def flattenStep (F : Point → Point → Point → Point → ℚ → ℚ → Path) (tolerance : ℚ)
    (s : FlatState) : FlatState :=
  if s.icmd < s.p.cmds.length then
    match s.p.cmds.getD s.icmd CloseCmd with
    | QuadToCmd =>
      let c : Point := ⟨s.p.d.getD s.i 0, s.p.d.getD (s.i + 1) 0⟩
      let e : Point := ⟨s.p.d.getD (s.i + 2) 0, s.p.d.getD (s.i + 3) 0⟩
      let c1 := s.start.Interpolate c (2 / 3)
      let c2 := e.Interpolate c (2 / 3)
      let q := F s.start c1 c2 e 0 tolerance
      let p' := s.p.replaceCmd s.icmd s.i q
      let i' := s.i + q.d.length
      let start' := if q.d.length = 0 then s.start
        else ⟨p'.d.getD (i' - 2) 0, p'.d.getD (i' - 1) 0⟩
      ⟨p', s.icmd + q.cmds.length, i', start'⟩
    | CubeToCmd =>
      let c1 : Point := ⟨s.p.d.getD s.i 0, s.p.d.getD (s.i + 1) 0⟩
      let c2 : Point := ⟨s.p.d.getD (s.i + 2) 0, s.p.d.getD (s.i + 3) 0⟩
      let e : Point := ⟨s.p.d.getD (s.i + 4) 0, s.p.d.getD (s.i + 5) 0⟩
      let q := F s.start c1 c2 e 0 tolerance
      let p' := s.p.replaceCmd s.icmd s.i q
      let i' := s.i + q.d.length
      let start' := if q.d.length = 0 then s.start
        else ⟨p'.d.getD (i' - 2) 0, p'.d.getD (i' - 1) 0⟩
      ⟨p', s.icmd + q.cmds.length, i', start'⟩
    | cmd =>
      let i' := s.i + cmd.Len
      ⟨s.p, s.icmd + 1, i', ⟨s.p.d.getD (i' - 2) 0, s.p.d.getD (i' - 1) 0⟩⟩
  else s

/-- Iterated flattening steps. -/
def flattenSteps (F : Point → Point → Point → Point → ℚ → ℚ → Path) (tolerance : ℚ) :
    Nat → FlatState → FlatState
  | 0, s => s
  | k + 1, s => flattenSteps F tolerance k (flattenStep F tolerance s)

/-- FlattenBeziers, from src/path.go: a copy of p with every Quad and Cube
command replaced by the output of the external flattening primitive F.
Each loop iteration strictly decreases the number of commands at or after
icmd, so the initial command count bounds the number of iterations. -/
def Path.FlattenBeziers (F : Point → Point → Point → Point → ℚ → ℚ → Path) (tolerance : ℚ)
    (p : Path) : Path :=
  (flattenSteps F tolerance p.cmds.length ⟨p.Copy, 0, 0, ⟨0, 0⟩⟩).p

/-- skipCommaWhitespace, from src/path.go. -/
def skipCommaWhitespace : List Char → Nat
  | [] => 0
  | c :: cs =>
    if c = ' ' ∨ c = ',' ∨ c = '\n' ∨ c = '\r' ∨ c = '\t' then 1 + skipCommaWhitespace cs
    else 0

/-- Value of a list of decimal digit characters. -/
def digitsToNat (ds : List Char) : Nat := ds.foldl (fun a c => a * 10 + (c.toNat - 48)) 0

/-- Modelled from the spec: the tolerant numeric scanner of the external
parsing library (strconv.ParseFloat) used by src/path.go. It reads an
optional sign, integer digits and an optional fractional part, returning
the value and the number of characters consumed; when no digit is present
it consumes nothing and returns zero. -/
def ParseFloat (cs : List Char) : ℚ × Nat :=
  let sign : ℚ × List Char × Nat :=
    match cs with
    | '-' :: rest => (-1, rest, 1)
    | '+' :: rest => (1, rest, 1)
    | _ => (1, cs, 0)
  let intDigits := sign.2.1.takeWhile Char.isDigit
  let cs2 := sign.2.1.drop intDigits.length
  let frac : List Char × Nat :=
    match cs2 with
    | '.' :: rest =>
      let fd := rest.takeWhile Char.isDigit
      (fd, 1 + fd.length)
    | _ => ([], 0)
  if intDigits.length = 0 ∧ frac.1.length = 0 then (0, 0)
  else
    ((sign.1 * ((digitsToNat intDigits : ℚ) +
        (digitsToNat frac.1 : ℚ) / ((10 ^ frac.1.length : ℕ) : ℚ))),
     sign.2.2 + intDigits.length + frac.2)

/-- parseNum, from src/path.go: skips separators, then scans a number. -/
def parseNum (cs : List Char) : ℚ × Nat :=
  let i := skipCommaWhitespace cs
  let fn := ParseFloat (cs.drop i)
  (fn.1, i + fn.2)

/-- State of the ParseSVGPath loop of src/path.go: the path built so far,
the previous command letter, the last control point, and the scan index. -/
structure ParseState where
  p : Path
  prevCmd : Char
  cpx : ℚ
  cpy : ℚ
  i : Nat
deriving DecidableEq

/-- One iteration of the ParseSVGPath loop of src/path.go, entered only
while the scan index is inside the input. -/
def parseStep (cs : List Char) (s : ParseState) : ParseState :=
  let i0 := s.i + skipCommaWhitespace (cs.drop s.i)
  let hasCmd : Bool := decide ('A' ≤ cs.getD i0 ' ')
  let cmd := if hasCmd then cs.getD i0 ' ' else s.prevCmd
  let i1 := if hasCmd then i0 + 1 else i0
  let pos := s.p.Pos
  let x := pos.1
  let y := pos.2
  if cmd = 'M' ∨ cmd = 'm' then
    let r1 := parseNum (cs.drop i1)
    let i2 := i1 + r1.2
    let r2 := parseNum (cs.drop i2)
    let i3 := i2 + r2.2
    let a := if cmd = 'm' then r1.1 + x else r1.1
    let b := if cmd = 'm' then r2.1 + y else r2.1
    ⟨s.p.MoveTo a b, cmd, s.cpx, s.cpy, i3⟩
  else if cmd = 'Z' ∨ cmd = 'z' then
    ⟨s.p.Close, cmd, s.cpx, s.cpy, i1⟩
  else if cmd = 'L' ∨ cmd = 'l' then
    let r1 := parseNum (cs.drop i1)
    let i2 := i1 + r1.2
    let r2 := parseNum (cs.drop i2)
    let i3 := i2 + r2.2
    let a := if cmd = 'l' then r1.1 + x else r1.1
    let b := if cmd = 'l' then r2.1 + y else r2.1
    ⟨s.p.LineTo a b, cmd, s.cpx, s.cpy, i3⟩
  else if cmd = 'H' ∨ cmd = 'h' then
    let r1 := parseNum (cs.drop i1)
    let i2 := i1 + r1.2
    let a := if cmd = 'h' then r1.1 + x else r1.1
    ⟨s.p.LineTo a y, cmd, s.cpx, s.cpy, i2⟩
  else if cmd = 'V' ∨ cmd = 'v' then
    let r1 := parseNum (cs.drop i1)
    let i2 := i1 + r1.2
    let b := if cmd = 'v' then r1.1 + y else r1.1
    ⟨s.p.LineTo x b, cmd, s.cpx, s.cpy, i2⟩
  else if cmd = 'C' ∨ cmd = 'c' then
    let r1 := parseNum (cs.drop i1)
    let i2 := i1 + r1.2
    let r2 := parseNum (cs.drop i2)
    let i3 := i2 + r2.2
    let r3 := parseNum (cs.drop i3)
    let i4 := i3 + r3.2
    let r4 := parseNum (cs.drop i4)
    let i5 := i4 + r4.2
    let r5 := parseNum (cs.drop i5)
    let i6 := i5 + r5.2
    let r6 := parseNum (cs.drop i6)
    let i7 := i6 + r6.2
    let a := if cmd = 'c' then r1.1 + x else r1.1
    let b := if cmd = 'c' then r2.1 + y else r2.1
    let c := if cmd = 'c' then r3.1 + x else r3.1
    let dd := if cmd = 'c' then r4.1 + y else r4.1
    let e := if cmd = 'c' then r5.1 + x else r5.1
    let f := if cmd = 'c' then r6.1 + y else r6.1
    ⟨s.p.CubeTo a b c dd e f, cmd, c, dd, i7⟩
  else if cmd = 'S' ∨ cmd = 's' then
    let r1 := parseNum (cs.drop i1)
    let i2 := i1 + r1.2
    let r2 := parseNum (cs.drop i2)
    let i3 := i2 + r2.2
    let r3 := parseNum (cs.drop i3)
    let i4 := i3 + r3.2
    let r4 := parseNum (cs.drop i4)
    let i5 := i4 + r4.2
    let c := if cmd = 's' then r1.1 + x else r1.1
    let dd := if cmd = 's' then r2.1 + y else r2.1
    let e := if cmd = 's' then r3.1 + x else r3.1
    let f := if cmd = 's' then r4.1 + y else r4.1
    let reflect := s.prevCmd = 'C' ∨ s.prevCmd = 'c' ∨ s.prevCmd = 'S' ∨ s.prevCmd = 's'
    let a := if reflect then 2 * x - s.cpx else x
    let b := if reflect then 2 * y - s.cpy else y
    ⟨s.p.CubeTo a b c dd e f, cmd, c, dd, i5⟩
  else if cmd = 'Q' ∨ cmd = 'q' then
    let r1 := parseNum (cs.drop i1)
    let i2 := i1 + r1.2
    let r2 := parseNum (cs.drop i2)
    let i3 := i2 + r2.2
    let r3 := parseNum (cs.drop i3)
    let i4 := i3 + r3.2
    let r4 := parseNum (cs.drop i4)
    let i5 := i4 + r4.2
    let a := if cmd = 'q' then r1.1 + x else r1.1
    let b := if cmd = 'q' then r2.1 + y else r2.1
    let c := if cmd = 'q' then r3.1 + x else r3.1
    let dd := if cmd = 'q' then r4.1 + y else r4.1
    ⟨s.p.QuadTo a b c dd, cmd, a, b, i5⟩
  else if cmd = 'T' ∨ cmd = 't' then
    let r1 := parseNum (cs.drop i1)
    let i2 := i1 + r1.2
    let r2 := parseNum (cs.drop i2)
    let i3 := i2 + r2.2
    let c := if cmd = 't' then r1.1 + x else r1.1
    let dd := if cmd = 't' then r2.1 + y else r2.1
    let reflect := s.prevCmd = 'Q' ∨ s.prevCmd = 'q' ∨ s.prevCmd = 'T' ∨ s.prevCmd = 't'
    let a := if reflect then 2 * x - s.cpx else x
    let b := if reflect then 2 * y - s.cpy else y
    ⟨s.p.QuadTo a b c dd, cmd, a, b, i3⟩
  else if cmd = 'A' ∨ cmd = 'a' then
    let r1 := parseNum (cs.drop i1)
    let i2 := i1 + r1.2
    let r2 := parseNum (cs.drop i2)
    let i3 := i2 + r2.2
    let r3 := parseNum (cs.drop i3)
    let i4 := i3 + r3.2
    let r4 := parseNum (cs.drop i4)
    let i5 := i4 + r4.2
    let r5 := parseNum (cs.drop i5)
    let i6 := i5 + r5.2
    let r6 := parseNum (cs.drop i6)
    let i7 := i6 + r6.2
    let r7 := parseNum (cs.drop i7)
    let i8 := i7 + r7.2
    let f := if cmd = 'a' then r6.1 + x else r6.1
    let g := if cmd = 'a' then r7.1 + y else r7.1
    let large : Bool := decide (-eps < r4.1 - 1 ∧ r4.1 - 1 < eps)
    let sweep : Bool := decide (-eps < r5.1 - 1 ∧ r5.1 - 1 < eps)
    ⟨s.p.ArcTo r1.1 r2.1 r3.1 large sweep f g, cmd, s.cpx, s.cpy, i8⟩
  else
    ⟨s.p, cmd, s.cpx, s.cpy, i1⟩

/-- The scan loop of ParseSVGPath, with fuel: none means the loop did not
finish within the given number of iterations (the source loop has no
a priori bound on its iteration count). -/
def parseLoop (cs : List Char) : Nat → ParseState → Option Path
  | 0, s => if s.i < cs.length then none else some s.p
  | fuel + 1, s => if s.i < cs.length then parseLoop cs fuel (parseStep cs s) else some s.p

/-- ParseSVGPath, from src/path.go, with a fuel budget that is generous for
every input whose scan terminates. -/
def ParseSVGPath (str : String) : Option Path :=
  parseLoop str.data (4 * str.length + 4) ⟨⟨[], [], 0, 0⟩, Char.ofNat 0, 0, 0, 0⟩

/-- Fuel driven decimal digit expansion of a remainder over a denominator. -/
def ftosDigits : Nat → Nat → Nat → String
  | 0, _, _ => ""
  | _ + 1, 0, _ => ""
  | fuel + 1, r, den => Nat.repr (r * 10 / den) ++ ftosDigits fuel (r * 10 % den) den

/-- Modelled from the spec: the numeric formatter ftos of the repository
(not under src/), printing the shortest decimal form that reconstructs the
coordinate; integral values print without a decimal point. -/
def ftos (q : ℚ) : String :=
  let sign := if q < 0 then "-" else ""
  let n := q.num.natAbs
  let ipart := Nat.repr (n / q.den)
  let rem := n % q.den
  if rem = 0 then sign ++ ipart else sign ++ ipart ++ "." ++ ftosDigits 30 rem q.den

/-- The serialization loop of ToSVGPath, from src/path.go, walking the
commands with the coordinates still to consume and the current point. -/
def toSVGGo : List PathCmd → List ℚ → ℚ → ℚ → String
  | [], _, _, _ => ""
  | MoveToCmd :: cs, d, _, _ =>
    let x := d.getD 0 0
    let y := d.getD 1 0
    "M" ++ ftos x ++ " " ++ ftos y ++ toSVGGo cs (d.drop 2) x y
  | LineToCmd :: cs, d, xs, ys =>
    let x := d.getD 0 0
    let y := d.getD 1 0
    (if Equal x xs && Equal y ys then ""
     else if Equal x xs then "V" ++ ftos y
     else if Equal y ys then "H" ++ ftos x
     else "L" ++ ftos x ++ " " ++ ftos y) ++ toSVGGo cs (d.drop 2) x y
  | QuadToCmd :: cs, d, _, _ =>
    let x := d.getD 2 0
    let y := d.getD 3 0
    "Q" ++ ftos (d.getD 0 0) ++ " " ++ ftos (d.getD 1 0) ++ " " ++ ftos x ++ " " ++ ftos y ++
      toSVGGo cs (d.drop 4) x y
  | CubeToCmd :: cs, d, _, _ =>
    let x := d.getD 4 0
    let y := d.getD 5 0
    "C" ++ ftos (d.getD 0 0) ++ " " ++ ftos (d.getD 1 0) ++ " " ++ ftos (d.getD 2 0) ++ " " ++
      ftos (d.getD 3 0) ++ " " ++ ftos x ++ " " ++ ftos y ++ toSVGGo cs (d.drop 6) x y
  | ArcToCmd :: cs, d, _, _ =>
    let x := d.getD 5 0
    let y := d.getD 6 0
    "A" ++ ftos (d.getD 0 0) ++ " " ++ ftos (d.getD 1 0) ++ " " ++ ftos (d.getD 2 0) ++ " " ++
      ftos (d.getD 3 0) ++ " " ++ ftos (d.getD 4 0) ++ " " ++ ftos x ++ " " ++ ftos y ++
      toSVGGo cs (d.drop 7) x y
  | CloseCmd :: cs, d, _, _ =>
    let x := d.getD 0 0
    let y := d.getD 1 0
    "z" ++ toSVGGo cs (d.drop 2) x y

/-- ToSVGPath, from src/path.go: serializes a path to SVG path data text,
prefixing an implicit M0 0 when the path does not start with MoveTo. -/
def Path.ToSVGPath (p : Path) : String :=
  (if 0 < p.cmds.length ∧ p.cmds.head? ≠ some MoveToCmd then "M0 0" else "") ++
    toSVGGo p.cmds p.d 0 0

/-- The empty path. -/
def emptyPath : Path := ⟨[], [], 0, 0⟩

/-- Helper for the spec side definition of the start cache invariant:
walks the commands in parallel with the coordinates, remembering the
coordinates of the latest MoveTo. -/
def lastMoveToGo : List PathCmd → List ℚ → ℚ × ℚ → ℚ × ℚ
  | [], _, acc => acc
  | MoveToCmd :: cs, d, _ => lastMoveToGo cs (d.drop 2) (d.getD 0 0, d.getD 1 0)
  | c :: cs, d, acc => lastMoveToGo cs (d.drop c.Len) acc

/-- Follows the wording of the spec (for comparison with the cached x0, y0):
the coordinates of the last MoveTo command present in the command sequence,
or (0,0) when the sequence contains no MoveTo. -/
def Path.lastMoveToSpec (p : Path) : ℚ × ℚ := lastMoveToGo p.cmds p.d (0, 0)

/-- A drawn element of a path: per command kind, the start point, the
control points or arc parameters, and the end point; MoveTo draws nothing
and only moves the pen. Used as the geometric trace the spec compares
paths by (same sequence of drawn segments, same parameters, same
subpaths closed). -/
inductive Seg where
  | line (s e : ℚ × ℚ)
  | quad (s c e : ℚ × ℚ)
  | cube (s c1 c2 e : ℚ × ℚ)
  | arc (s : ℚ × ℚ) (rx ry rot fl fs : ℚ) (e : ℚ × ℚ)
  | closeSeg (s e : ℚ × ℚ)
deriving DecidableEq

/-- The geometric trace of a command list: pen tracking starts at the
given point ((0,0) for a whole path, matching the implicit start
convention of the serializer and of Translate). -/
def segsGo : List PathCmd → List ℚ → ℚ × ℚ → List Seg
  | [], _, _ => []
  | MoveToCmd :: cs, d, _ => segsGo cs (d.drop 2) (d.getD 0 0, d.getD 1 0)
  | LineToCmd :: cs, d, pen =>
    Seg.line pen (d.getD 0 0, d.getD 1 0) :: segsGo cs (d.drop 2) (d.getD 0 0, d.getD 1 0)
  | QuadToCmd :: cs, d, pen =>
    Seg.quad pen (d.getD 0 0, d.getD 1 0) (d.getD 2 0, d.getD 3 0) ::
      segsGo cs (d.drop 4) (d.getD 2 0, d.getD 3 0)
  | CubeToCmd :: cs, d, pen =>
    Seg.cube pen (d.getD 0 0, d.getD 1 0) (d.getD 2 0, d.getD 3 0) (d.getD 4 0, d.getD 5 0) ::
      segsGo cs (d.drop 6) (d.getD 4 0, d.getD 5 0)
  | ArcToCmd :: cs, d, pen =>
    Seg.arc pen (d.getD 0 0) (d.getD 1 0) (d.getD 2 0) (d.getD 3 0) (d.getD 4 0)
        (d.getD 5 0, d.getD 6 0) :: segsGo cs (d.drop 7) (d.getD 5 0, d.getD 6 0)
  | CloseCmd :: cs, d, pen =>
    Seg.closeSeg pen (d.getD 0 0, d.getD 1 0) :: segsGo cs (d.drop 2) (d.getD 0 0, d.getD 1 0)

/-- The geometric trace of a path. -/
def Path.segments (p : Path) : List Seg := segsGo p.cmds p.d (0, 0)

/-- The initial state of the SVG scan loop on any input: empty path, zero
previous command byte, zero control point, index zero. -/
def initParseState : ParseState := ⟨⟨[], [], 0, 0⟩, Char.ofNat 0, 0, 0, 0⟩

/-- A path with no curve commands, as in the flattening part of the spec. -/
def noCurves (p : Path) : Prop := ∀ c ∈ p.cmds, c ≠ QuadToCmd ∧ c ≠ CubeToCmd

instance (p : Path) : Decidable (noCurves p) := by unfold noCurves; infer_instance

/-- Follows the wording of the spec (for comparison with the flattening
loop): the quadratic command at the current position of the state,
elevated to cubic form with control points c1 = start + 2/3 (ctrl - start)
and c2 = end + 2/3 (ctrl - end). -/
def elevateQuadAt (s : FlatState) : FlatState :=
  let c : Point := ⟨s.p.d.getD s.i 0, s.p.d.getD (s.i + 1) 0⟩
  let e : Point := ⟨s.p.d.getD (s.i + 2) 0, s.p.d.getD (s.i + 3) 0⟩
  let c1 : Point := ⟨s.start.x + 2 / 3 * (c.x - s.start.x), s.start.y + 2 / 3 * (c.y - s.start.y)⟩
  let c2 : Point := ⟨e.x + 2 / 3 * (c.x - e.x), e.y + 2 / 3 * (c.y - e.y)⟩
  ⟨⟨s.p.cmds.take s.icmd ++ [CubeToCmd] ++ s.p.cmds.drop (s.icmd + 1),
    s.p.d.take s.i ++ [c1.x, c1.y, c2.x, c2.y, e.x, e.y] ++ s.p.d.drop (s.i + 4),
    s.p.x0, s.p.y0⟩, s.icmd, s.i, s.start⟩

/-- The buffer length invariant of the spec: the arities of the commands
sum to the length of the coordinate buffer. -/
def arityOk (p : Path) : Prop := aritySum p.cmds = p.d.length

instance (p : Path) : Decidable (arityOk p) := by unfold arityOk; infer_instance

/-- Invariant of the flattening loop: the buffers are consistent and the
coordinate offset matches the command position. -/
def FlatInv (s : FlatState) : Prop :=
  arityOk s.p ∧ s.i = aritySum (s.p.cmds.take s.icmd)

/-- Adjacent fragments of Split touch only where a boundary belongs: the
next fragment opens with a MoveTo, or the previous one ends with a Close. -/
def splitAdj (q q' : Path) : Prop :=
  q'.cmds.head? = some MoveToCmd ∨ q.cmds.getLast? = some CloseCmd

/-- All paths obtainable from the empty path by the public builder methods
and algebra operations of src/path.go, including every intermediate state
of the FlattenBeziers splice loop, relative to a cubic flattening
primitive F. -/
inductive Reachable (F : Point → Point → Point → Point → ℚ → ℚ → Path) : Path → Prop where
  | empty : Reachable F ⟨[], [], 0, 0⟩
  | moveTo {p : Path} (h : Reachable F p) (x y : ℚ) : Reachable F (p.MoveTo x y)
  | lineTo {p : Path} (h : Reachable F p) (x y : ℚ) : Reachable F (p.LineTo x y)
  | quadTo {p : Path} (h : Reachable F p) (x1 y1 x y : ℚ) : Reachable F (p.QuadTo x1 y1 x y)
  | cubeTo {p : Path} (h : Reachable F p) (x1 y1 x2 y2 x y : ℚ) :
      Reachable F (p.CubeTo x1 y1 x2 y2 x y)
  | arcTo {p : Path} (h : Reachable F p) (rx ry rot : ℚ) (large sweep : Bool) (x y : ℚ) :
      Reachable F (p.ArcTo rx ry rot large sweep x y)
  | close {p : Path} (h : Reachable F p) : Reachable F p.Close
  | rect {p : Path} (h : Reachable F p) (x y w hh : ℚ) : Reachable F (p.Rect x y w hh)
  | ellipse {p : Path} (h : Reachable F p) (x y rx ry : ℚ) : Reachable F (p.Ellipse x y rx ry)
  | copy {p : Path} (h : Reachable F p) : Reachable F p.Copy
  | append {p q : Path} (h1 : Reachable F p) (h2 : Reachable F q) : Reachable F (p.Append q)
  | translate {p : Path} (h : Reachable F p) (x y : ℚ) : Reachable F (p.Translate x y)
  | split {p : Path} (h : Reachable F p) (q : Path) (hq : q ∈ p.Split) : Reachable F q
  | reverse {p : Path} (h : Reachable F p) : Reachable F p.Reverse
  | flattenMid {p : Path} (h : Reachable F p) (tolerance : ℚ) (k : Nat) :
      Reachable F ((flattenSteps F tolerance k ⟨p.Copy, 0, 0, ⟨0, 0⟩⟩).p)
  | flatten {p : Path} (h : Reachable F p) (tolerance : ℚ) :
      Reachable F (p.FlattenBeziers F tolerance)

/-- Claim C7 (confirmed): starting from the empty path, Rect(0,0,10,20)
serializes to exactly M0 0H10V20H0z, with the axis aligned edges collapsed
to H and V tokens and Close emitting a bare z. -/
theorem rect_toSVGPath : (emptyPath.Rect 0 0 10 20).ToSVGPath = "M0 0H10V20H0z" := by decide

/-- Claim C10 (confirmed): Reverse of the empty path is the empty path:
no commands, no coordinates, start cache (0,0). -/
theorem reverse_empty : emptyPath.Reverse = ⟨[], [], 0, 0⟩ := by decide

/-- Claim C8 (confirmed): parsing C10 10 20 10 20 20 S30 30 40 20 yields
two CubeTo commands, the second one with first control point
(2*20-20, 2*20-10) = (20,30), the reflection of the previous control point
(20,10) through the current point (20,20), taken because the preceding
command is in the cubic family. -/
theorem parse_shorthand_reflection :
    ParseSVGPath "C10 10 20 10 20 20 S30 30 40 20" =
      some ⟨[CubeToCmd, CubeToCmd],
        [10, 10, 20, 10, 20, 20, 2 * 20 - 20, 2 * 20 - 10, 30, 30, 40, 20], 0, 0⟩ := by decide

/-- Claim C1 (counterexample): parsing M0 0L10 0L10 10z and reversing does
not serialize to M10 10L10 0L0 0z; the reversed path starts at the origin
(the end point of the closed subpath), so no leading MoveTo is emitted by
Reverse and the serializer re-synthesizes an M0 0 prefix instead. -/
theorem reverse_triangle_svg_ne_spec :
    (ParseSVGPath "M0 0L10 0L10 10z").map (fun p => p.Reverse.ToSVGPath) ≠
      some "M10 10L10 0L0 0z" := by decide

/-- Claim C1 (corrected): parsing M0 0L10 0L10 10z and reversing
serializes to exactly M0 0L10 10V0z: the reversed traversal runs
(0,0) to (10,10) to (10,0) and closes back to (0,0), with the vertical
edge collapsed to V0. -/
theorem reverse_triangle_svg :
    (ParseSVGPath "M0 0L10 0L10 10z").map (fun p => p.Reverse.ToSVGPath) =
      some "M0 0L10 10V0z" := by decide

/-- Claim C2 (code_bug): Translate shifts the MoveTo coordinates stored in
the coordinate buffer but never updates the cached start (x0, y0), so for
the translated path the cache no longer equals the coordinates of its last
MoveTo command, contradicting the invariant stated by the spec and by the
comment on the x0, y0 fields in src/path.go. -/
theorem translate_stale_start_cache :
    ((emptyPath.MoveTo 1 2).Translate 10 10).cmds = [MoveToCmd] ∧
    ((emptyPath.MoveTo 1 2).Translate 10 10).d = [11, 12] ∧
    ((emptyPath.MoveTo 1 2).Translate 10 10).Start = (1, 2) ∧
    ((emptyPath.MoveTo 1 2).Translate 10 10).lastMoveToSpec = (11, 12) ∧
    ((emptyPath.MoveTo 1 2).Translate 10 10).Start ≠
      ((emptyPath.MoveTo 1 2).Translate 10 10).lastMoveToSpec := by decide

/-- Claim C5 (code_bug): double reversal is not geometrically equivalent
for the path M1 0 L0 0 M5 5 L6 5 (which has no zero length edges): Reverse
suppresses the MoveTo that would open the reversed image of the first
subpath because that subpath ends at the origin, merging the two subpaths;
reversing again yields a drawn segment from (1,0) to (5,5) that the
original path does not contain. -/
theorem reverse_reverse_not_involutive :
    ((((emptyPath.MoveTo 1 0).LineTo 0 0).MoveTo 5 5).LineTo 6 5).segments =
      [Seg.line (1, 0) (0, 0), Seg.line (5, 5) (6, 5)] ∧
    ((((emptyPath.MoveTo 1 0).LineTo 0 0).MoveTo 5 5).LineTo 6 5).Reverse.Reverse.segments =
      [Seg.line (1, 0) (5, 5), Seg.line (5, 5) (6, 5)] ∧
    ((((emptyPath.MoveTo 1 0).LineTo 0 0).MoveTo 5 5).LineTo 6 5).Reverse.Reverse.segments ≠
      ((((emptyPath.MoveTo 1 0).LineTo 0 0).MoveTo 5 5).LineTo 6 5).segments := by decide

/-- On the input 5 the scan loop is stuck: no command letter is seen, the
zero previous command byte matches no case, and the index does not
advance. -/
theorem parseStep_digit_stuck : parseStep "5".data initParseState = initParseState := by decide

/-- Claim C3 (code_bug): the scan loop of ParseSVGPath does not terminate
on the input 5: the current byte is not a command letter, so the command
is the previous command byte (initially zero), no case of the switch
matches, and the scan index never advances; the loop returns no result at
any fuel. -/
theorem parse_digit_only_never_terminates :
    (∀ fuel, parseLoop "5".data fuel initParseState = none) ∧ ParseSVGPath "5" = none := by
  have h : ∀ fuel, parseLoop "5".data fuel initParseState = none := by
    intro fuel
    induction fuel with
    | zero => decide
    | succ n ih =>
      rw [parseLoop]
      rw [if_pos (by decide)]
      rw [parseStep_digit_stuck]
      exact ih
  exact ⟨h, h _⟩

/-- A getD read with an in range index is a member of the list. -/
lemma getD_mem {cs : List PathCmd} {n : Nat} (h : n < cs.length) (x : PathCmd) :
    cs.getD n x ∈ cs := by
  rw [List.getD_eq_getElem?_getD, List.getElem?_eq_getElem h]
  exact List.getElem_mem h

/-- Taking the length of the left part of an append returns it. -/
lemma take_len_append {α : Type} (l1 l2 : List α) : (l1 ++ l2).take l1.length = l1 :=
  List.take_left l1 l2

/-- Dropping the length of the left part plus k drops k of the right part. -/
lemma drop_len_plus {α : Type} (l1 l2 : List α) (k : Nat) :
    (l1 ++ l2).drop (l1.length + k) = l2.drop k := by
  induction l1 with
  | nil => simp
  | cons a l ih => simp [Nat.succ_add, ih]

/-- Dropping the length of the left part of an append returns the right. -/
lemma drop_len_append {α : Type} (l1 l2 : List α) : (l1 ++ l2).drop l1.length = l2 :=
  List.drop_left l1 l2

/-- Reading past the left part of an append reads in the right part. -/
lemma getD_len_plus {α : Type} (l1 l2 : List α) (k : Nat) (x : α) :
    (l1 ++ l2).getD (l1.length + k) x = l2.getD k x := by
  simp [List.getD_eq_getElem?_getD, List.getElem?_append_right (Nat.le_add_right _ _)]

/-- Reading at the length of the left part reads the head of the right. -/
lemma getD_len_append {α : Type} (l1 l2 : List α) (x : α) :
    (l1 ++ l2).getD l1.length x = l2.getD 0 x := by
  rw [← Nat.add_zero l1.length, getD_len_plus]

/-- A flattening step on a state whose path has no curve commands leaves
the path buffers unchanged. -/
lemma flattenStep_p_noCurve (F : Point → Point → Point → Point → ℚ → ℚ → Path) (tol : ℚ)
    (s : FlatState) (h : noCurves s.p) : (flattenStep F tol s).p = s.p := by
  unfold flattenStep
  split
  · next hlt =>
    have hm := h _ (getD_mem hlt CloseCmd)
    split
    · next heq => exact absurd heq hm.1
    · next heq => exact absurd heq hm.2
    · rfl
  · rfl

/-- Iterated flattening steps on a curve free path leave it unchanged. -/
lemma flattenSteps_p_noCurve (F : Point → Point → Point → Point → ℚ → ℚ → Path) (tol : ℚ) :
    ∀ (k : Nat) (s : FlatState), noCurves s.p → (flattenSteps F tol k s).p = s.p := by
  intro k
  induction k with
  | zero => intro s _; rfl
  | succ n ih =>
    intro s h
    rw [flattenSteps]
    have hp := flattenStep_p_noCurve F tol s h
    rw [ih _ (by unfold noCurves; rw [hp]; exact h), hp]

/-- A flattening step on a state whose current command is a QuadTo equals
the flattening step on the state with that QuadTo elevated to cubic form:
the quadratic is elevated before being handed to the cubic flattener. -/
lemma flattenStep_elevate (F : Point → Point → Point → Point → ℚ → ℚ → Path) (tol : ℚ)
    (pre post : List PathCmd) (dpre dpost : List ℚ) (a b cx cy x0 y0 : ℚ) (st : Point) :
    flattenStep F tol ⟨⟨pre ++ QuadToCmd :: post, dpre ++ a :: b :: cx :: cy :: dpost, x0, y0⟩,
        pre.length, dpre.length, st⟩ =
      flattenStep F tol (elevateQuadAt
        ⟨⟨pre ++ QuadToCmd :: post, dpre ++ a :: b :: cx :: cy :: dpost, x0, y0⟩,
          pre.length, dpre.length, st⟩) := by
  simp only [flattenStep, elevateQuadAt, Path.replaceCmd, Point.Interpolate,
    List.append_assoc, List.cons_append, List.nil_append,
    getD_len_append, getD_len_plus, List.getD_cons_zero, List.getD_cons_succ,
    take_len_append, drop_len_plus, drop_len_append,
    List.drop_succ_cons, List.drop_zero,
    List.length_append, List.length_cons, PathCmd.Len,
    lt_add_iff_pos_right, Nat.succ_pos, if_true, ite_true]

/-- Claim C9 (confirmed): FlattenBeziers returns the path unchanged when
it contains no QuadTo or CubeTo command, and the loop handles a QuadTo
exactly as it handles its elevation to a cubic whose control points are
c1 = start + 2/3 (ctrl - start) and c2 = end + 2/3 (ctrl - end), so every
quadratic is elevated before being handed to the cubic flattener F. -/
theorem flattenBeziers_props :
    (∀ (F : Point → Point → Point → Point → ℚ → ℚ → Path) (tolerance : ℚ) (p : Path),
        noCurves p → p.FlattenBeziers F tolerance = p) ∧
    (∀ (F : Point → Point → Point → Point → ℚ → ℚ → Path) (tolerance : ℚ)
        (pre post : List PathCmd) (dpre dpost : List ℚ) (a b cx cy x0 y0 : ℚ) (st : Point),
        flattenStep F tolerance
            ⟨⟨pre ++ QuadToCmd :: post, dpre ++ a :: b :: cx :: cy :: dpost, x0, y0⟩,
              pre.length, dpre.length, st⟩ =
          flattenStep F tolerance (elevateQuadAt
            ⟨⟨pre ++ QuadToCmd :: post, dpre ++ a :: b :: cx :: cy :: dpost, x0, y0⟩,
              pre.length, dpre.length, st⟩)) := by
  constructor
  · intro F tolerance p h
    unfold Path.FlattenBeziers
    exact flattenSteps_p_noCurve F tolerance _ _ h
  · exact flattenStep_elevate

/-- Witness for claim C9: the hypotheses hold and the conclusion follows
at a concrete curve free path and a concrete flattener. -/
theorem flattenBeziers_props_witness :
    noCurves ((emptyPath.MoveTo 1 2).LineTo 3 4) ∧
    ((emptyPath.MoveTo 1 2).LineTo 3 4).FlattenBeziers (fun _ _ _ _ _ _ => emptyPath) 1 =
      (emptyPath.MoveTo 1 2).LineTo 3 4 :=
  ⟨by decide, flattenBeziers_props.1 (fun _ _ _ _ _ _ => emptyPath) 1 _ (by decide)⟩

lemma aritySum_append (cs1 cs2 : List PathCmd) :
    aritySum (cs1 ++ cs2) = aritySum cs1 + aritySum cs2 := by
  simp [aritySum]

lemma len_pos (c : PathCmd) : 0 < c.Len := by cases c <;> decide

lemma aritySum_pos {cs : List PathCmd} (h : cs ≠ []) : 0 < aritySum cs := by
  cases cs with
  | nil => exact absurd rfl h
  | cons c t =>
    have := len_pos c
    simp [aritySum]
    omega

lemma aritySum_take_le (cs : List PathCmd) (n : Nat) : aritySum (cs.take n) ≤ aritySum cs := by
  conv_rhs => rw [← List.take_append_drop n cs]
  rw [aritySum_append]
  omega

lemma aritySum_take_mono (cs : List PathCmd) {m n : Nat} (h : m ≤ n) :
    aritySum (cs.take m) ≤ aritySum (cs.take n) := by
  have h1 : cs.take m = (cs.take n).take m := by
    rw [List.take_take, Nat.min_eq_left h]
  rw [h1]
  exact aritySum_take_le _ _

lemma aritySum_drop (cs : List PathCmd) (n : Nat) :
    aritySum (cs.drop n) = aritySum cs - aritySum (cs.take n) := by
  have h : aritySum cs = aritySum (cs.take n) + aritySum (cs.drop n) := by
    conv_lhs => rw [← List.take_append_drop n cs]
    rw [aritySum_append]
  omega

lemma take_slice_eq (cs : List PathCmd) (m n : Nat) (h : m ≤ n) :
    (cs.drop m).take (n - m) = (cs.take n).drop m := by
  rw [List.take_drop, Nat.add_sub_cancel' h]

lemma aritySum_take_slice (cs : List PathCmd) (m n : Nat) (h : m ≤ n) :
    aritySum ((cs.drop m).take (n - m)) = aritySum (cs.take n) - aritySum (cs.take m) := by
  rw [take_slice_eq cs m n h]
  have h3 : (cs.take n).take m = cs.take m := by
    rw [List.take_take, Nat.min_eq_left h]
  have h2 := aritySum_drop (cs.take n) m
  rw [h3] at h2
  exact h2

lemma take_join_drop {α : Type} (l : List α) (m n : Nat) (h : m ≤ n) :
    (l.drop m).take (n - m) ++ l.drop n = l.drop m := by
  have := List.drop_take_append_drop l m (n - m)
  rwa [Nat.add_sub_cancel' h] at this

lemma frag_arityOk (p : Path) (hp : arityOk p) (icmd jcmd : Nat) (hicmd : icmd ≤ jcmd)
    (x0 y0 : ℚ) :
    arityOk ⟨(p.cmds.drop icmd).take (jcmd - icmd),
      (p.d.drop (aritySum (p.cmds.take icmd))).take
        (aritySum (p.cmds.take jcmd) - aritySum (p.cmds.take icmd)), x0, y0⟩ := by
  unfold arityOk
  simp only
  rw [aritySum_take_slice p.cmds icmd jcmd hicmd, List.length_take, List.length_drop]
  have h1 : aritySum (p.cmds.take jcmd) ≤ p.d.length := hp ▸ aritySum_take_le _ _
  have h2 : aritySum (p.cmds.take icmd) ≤ aritySum (p.cmds.take jcmd) :=
    aritySum_take_mono _ hicmd
  omega

lemma getElem?_of_drop {α : Type} {l : List α} {n : Nat} {c : α} {t : List α}
    (h : l.drop n = c :: t) : l[n]? = some c := by
  have h0 : (l.drop n)[0]? = some c := by rw [h]; simp
  rw [List.getElem?_drop] at h0
  simpa using h0

lemma splitGo_main (p : Path) (hp : arityOk p) :
    ∀ (rest : List PathCmd) (jcmd icmd i j : Nat) (closed : Bool) (x0 y0 : ℚ),
      p.cmds.drop jcmd = rest →
      icmd ≤ jcmd →
      i = aritySum (p.cmds.take icmd) →
      j = aritySum (p.cmds.take jcmd) →
      (∀ q ∈ splitGo p rest jcmd icmd i j closed x0 y0, arityOk q) ∧
      ((splitGo p rest jcmd icmd i j closed x0 y0).map Path.cmds).flatten = p.cmds.drop icmd ∧
      ((splitGo p rest jcmd icmd i j closed x0 y0).map Path.d).flatten = p.d.drop i := by
  intro rest
  induction rest with
  | nil =>
    intro jcmd icmd i j closed x0 y0 hdrop hicmd hi hj
    have hlen : p.cmds.length ≤ jcmd := List.drop_eq_nil_iff.mp hdrop
    have htk : p.cmds.take jcmd = p.cmds := List.take_of_length_le hlen
    have hjtot : j = aritySum p.cmds := by rw [hj, htk]
    have hdtot : aritySum p.cmds = p.d.length := hp
    have hij : i ≤ j := by
      rw [hi, hj]; exact aritySum_take_mono _ hicmd
    rw [splitGo]
    by_cases hlt : i < j
    · rw [if_pos hlt]
      refine ⟨?_, ?_, ?_⟩
      · intro q hq
        rw [List.mem_singleton] at hq
        subst hq hi hj
        exact frag_arityOk p hp icmd jcmd hicmd x0 y0
      · simp only [List.map_cons, List.map_nil, List.flatten_cons, List.flatten_nil,
          List.append_nil]
        apply List.take_of_length_le
        rw [List.length_drop]
        omega
      · simp only [List.map_cons, List.map_nil, List.flatten_cons, List.flatten_nil,
          List.append_nil]
        apply List.take_of_length_le
        rw [List.length_drop]
        omega
    · rw [if_neg hlt]
      have hieq : i = j := by omega
      have hdicmd : p.cmds.drop icmd = [] := by
        by_contra hne
        have hpos := aritySum_pos hne
        have h2 := aritySum_drop p.cmds icmd
        have h3 := aritySum_take_le p.cmds icmd
        omega
      have hdi : p.d.drop i = [] := by
        apply List.drop_eq_nil_of_le
        omega
      exact ⟨by intro q hq; simp at hq, by simp [hdicmd], by simp [hdi]⟩
  | cons cmd rest' ih =>
    intro jcmd icmd i j closed x0 y0 hdrop hicmd hi hj
    have hjlt : jcmd < p.cmds.length := by
      by_contra hle
      rw [List.drop_eq_nil_of_le (by omega)] at hdrop
      exact List.noConfusion hdrop
    have hcmd : p.cmds[jcmd]? = some cmd := getElem?_of_drop hdrop
    have hrest' : p.cmds.drop (jcmd + 1) = rest' := by
      have h1 : (p.cmds.drop jcmd).drop 1 = p.cmds.drop (jcmd + 1) := by
        rw [List.drop_drop]
      rw [← h1, hdrop]
      rfl
    have htake1 : p.cmds.take (jcmd + 1) = p.cmds.take jcmd ++ [cmd] := by
      rw [List.take_succ, hcmd]
      rfl
    have hj1 : aritySum (p.cmds.take (jcmd + 1)) = j + cmd.Len := by
      rw [htake1, aritySum_append, hj]
      simp [aritySum]
    have hij : i ≤ j := by
      rw [hi, hj]; exact aritySum_take_mono _ hicmd
    have hfrag : ∀ x0' y0' : ℚ, arityOk (⟨(p.cmds.drop icmd).take (jcmd - icmd),
        (p.d.drop i).take (j - i), x0', y0'⟩ : Path) := by
      intro x0' y0'
      subst hi hj
      exact frag_arityOk p hp icmd jcmd hicmd x0' y0'
    have hjoinc : (p.cmds.drop icmd).take (jcmd - icmd) ++ p.cmds.drop jcmd =
        p.cmds.drop icmd := take_join_drop _ _ _ hicmd
    have hjoind : (p.d.drop i).take (j - i) ++ p.d.drop j = p.d.drop i :=
      take_join_drop _ _ _ hij
    cases cmd with
    | MoveToCmd =>
      simp only [splitGo, Bool.or_eq_true, Bool.and_eq_true, decide_eq_true_eq, reduceCtorEq,
        eq_self_iff_true, and_true, and_false, false_and, false_or]
      by_cases hP : i < j ∨ closed = true
      · simp only [if_pos hP, List.singleton_append]
        obtain ⟨ma, mb, mc⟩ := ih (jcmd + 1) jcmd j (j + 2) false (p.d.getD j 0) (p.d.getD (j + 1) 0)
          hrest' (by omega) hj (by rw [hj1]; rfl)
        refine ⟨?_, ?_, ?_⟩
        · intro q hq
          rw [List.mem_cons] at hq
          rcases hq with hq | hq
          · subst hq
            exact hfrag x0 y0
          · exact ma q hq
        · simp only [List.map_cons, List.flatten_cons]
          rw [mb]
          exact hjoinc
        · simp only [List.map_cons, List.flatten_cons]
          rw [mc]
          exact hjoind
      · simp only [if_neg hP, List.nil_append]
        exact ih (jcmd + 1) icmd i (j + 2) closed (p.d.getD j 0) (p.d.getD (j + 1) 0)
          hrest' (by omega) hi (by rw [hj1]; rfl)
    | LineToCmd =>
      simp only [splitGo, Bool.or_eq_true, Bool.and_eq_true, decide_eq_true_eq, reduceCtorEq,
        eq_self_iff_true, and_true, and_false, false_and, false_or]
      by_cases hP : closed = true
      · simp only [if_pos hP, List.singleton_append]
        obtain ⟨ma, mb, mc⟩ := ih (jcmd + 1) jcmd j (j + 2) false x0 y0
          hrest' (by omega) hj (by rw [hj1]; rfl)
        refine ⟨?_, ?_, ?_⟩
        · intro q hq
          rw [List.mem_cons] at hq
          rcases hq with hq | hq
          · subst hq
            exact hfrag x0 y0
          · exact ma q hq
        · simp only [List.map_cons, List.flatten_cons]
          rw [mb]
          exact hjoinc
        · simp only [List.map_cons, List.flatten_cons]
          rw [mc]
          exact hjoind
      · simp only [if_neg hP, List.nil_append]
        exact ih (jcmd + 1) icmd i (j + 2) closed x0 y0
          hrest' (by omega) hi (by rw [hj1]; rfl)
    | QuadToCmd =>
      simp only [splitGo, Bool.or_eq_true, Bool.and_eq_true, decide_eq_true_eq, reduceCtorEq,
        eq_self_iff_true, and_true, and_false, false_and, false_or]
      by_cases hP : closed = true
      · simp only [if_pos hP, List.singleton_append]
        obtain ⟨ma, mb, mc⟩ := ih (jcmd + 1) jcmd j (j + 4) false x0 y0
          hrest' (by omega) hj (by rw [hj1]; rfl)
        refine ⟨?_, ?_, ?_⟩
        · intro q hq
          rw [List.mem_cons] at hq
          rcases hq with hq | hq
          · subst hq
            exact hfrag x0 y0
          · exact ma q hq
        · simp only [List.map_cons, List.flatten_cons]
          rw [mb]
          exact hjoinc
        · simp only [List.map_cons, List.flatten_cons]
          rw [mc]
          exact hjoind
      · simp only [if_neg hP, List.nil_append]
        exact ih (jcmd + 1) icmd i (j + 4) closed x0 y0
          hrest' (by omega) hi (by rw [hj1]; rfl)
    | CubeToCmd =>
      simp only [splitGo, Bool.or_eq_true, Bool.and_eq_true, decide_eq_true_eq, reduceCtorEq,
        eq_self_iff_true, and_true, and_false, false_and, false_or]
      by_cases hP : closed = true
      · simp only [if_pos hP, List.singleton_append]
        obtain ⟨ma, mb, mc⟩ := ih (jcmd + 1) jcmd j (j + 6) false x0 y0
          hrest' (by omega) hj (by rw [hj1]; rfl)
        refine ⟨?_, ?_, ?_⟩
        · intro q hq
          rw [List.mem_cons] at hq
          rcases hq with hq | hq
          · subst hq
            exact hfrag x0 y0
          · exact ma q hq
        · simp only [List.map_cons, List.flatten_cons]
          rw [mb]
          exact hjoinc
        · simp only [List.map_cons, List.flatten_cons]
          rw [mc]
          exact hjoind
      · simp only [if_neg hP, List.nil_append]
        exact ih (jcmd + 1) icmd i (j + 6) closed x0 y0
          hrest' (by omega) hi (by rw [hj1]; rfl)
    | ArcToCmd =>
      simp only [splitGo, Bool.or_eq_true, Bool.and_eq_true, decide_eq_true_eq, reduceCtorEq,
        eq_self_iff_true, and_true, and_false, false_and, false_or]
      by_cases hP : closed = true
      · simp only [if_pos hP, List.singleton_append]
        obtain ⟨ma, mb, mc⟩ := ih (jcmd + 1) jcmd j (j + 7) false x0 y0
          hrest' (by omega) hj (by rw [hj1]; rfl)
        refine ⟨?_, ?_, ?_⟩
        · intro q hq
          rw [List.mem_cons] at hq
          rcases hq with hq | hq
          · subst hq
            exact hfrag x0 y0
          · exact ma q hq
        · simp only [List.map_cons, List.flatten_cons]
          rw [mb]
          exact hjoinc
        · simp only [List.map_cons, List.flatten_cons]
          rw [mc]
          exact hjoind
      · simp only [if_neg hP, List.nil_append]
        exact ih (jcmd + 1) icmd i (j + 7) closed x0 y0
          hrest' (by omega) hi (by rw [hj1]; rfl)
    | CloseCmd =>
      simp only [splitGo, Bool.or_eq_true, Bool.and_eq_true, decide_eq_true_eq, reduceCtorEq,
        eq_self_iff_true, and_true, and_false, false_and, false_or]
      by_cases hP : closed = true
      · simp only [if_pos hP, List.singleton_append]
        obtain ⟨ma, mb, mc⟩ := ih (jcmd + 1) jcmd j (j + 2) true x0 y0
          hrest' (by omega) hj (by rw [hj1]; rfl)
        refine ⟨?_, ?_, ?_⟩
        · intro q hq
          rw [List.mem_cons] at hq
          rcases hq with hq | hq
          · subst hq
            exact hfrag x0 y0
          · exact ma q hq
        · simp only [List.map_cons, List.flatten_cons]
          rw [mb]
          exact hjoinc
        · simp only [List.map_cons, List.flatten_cons]
          rw [mc]
          exact hjoind
      · simp only [if_neg hP, List.nil_append]
        exact ih (jcmd + 1) icmd i (j + 2) true x0 y0
          hrest' (by omega) hi (by rw [hj1]; rfl)

lemma take_len_plus {α : Type} (l1 l2 : List α) (k : Nat) :
    (l1 ++ l2).take (l1.length + k) = l1 ++ l2.take k := by
  induction l1 with
  | nil => simp
  | cons a l ih => simp [Nat.succ_add, ih]

lemma arityOk_push (p : Path) (c : PathCmd) (ds : List ℚ) (x0 y0 : ℚ) (h : arityOk p)
    (hlen : ds.length = c.Len) : arityOk ⟨p.cmds ++ [c], p.d ++ ds, x0, y0⟩ := by
  unfold arityOk at h ⊢
  simp only [aritySum_append, List.length_append]
  simp only [aritySum, List.map_cons, List.map_nil, List.sum_cons, List.sum_nil] at *
  omega

lemma arityOk_moveTo {p : Path} {x y : ℚ} (h : arityOk p) : arityOk (p.MoveTo x y) :=
  arityOk_push p MoveToCmd [x, y] x y h rfl

lemma arityOk_lineTo {p : Path} {x y : ℚ} (h : arityOk p) : arityOk (p.LineTo x y) :=
  arityOk_push p LineToCmd [x, y] p.x0 p.y0 h rfl

lemma arityOk_quadTo {p : Path} {x1 y1 x y : ℚ} (h : arityOk p) : arityOk (p.QuadTo x1 y1 x y) :=
  arityOk_push p QuadToCmd [x1, y1, x, y] p.x0 p.y0 h rfl

lemma arityOk_cubeTo {p : Path} {x1 y1 x2 y2 x y : ℚ} (h : arityOk p) :
    arityOk (p.CubeTo x1 y1 x2 y2 x y) :=
  arityOk_push p CubeToCmd [x1, y1, x2, y2, x, y] p.x0 p.y0 h rfl

lemma arityOk_arcTo {p : Path} {rx ry rot : ℚ} {large sweep : Bool} {x y : ℚ}
    (h : arityOk p) : arityOk (p.ArcTo rx ry rot large sweep x y) :=
  arityOk_push p ArcToCmd
    [rx, ry, rot, if large then 1 else 0, if sweep then 1 else 0, x, y] p.x0 p.y0 h rfl

lemma arityOk_close {p : Path} (h : arityOk p) : arityOk p.Close :=
  arityOk_push p CloseCmd [p.x0, p.y0] p.x0 p.y0 h rfl

lemma arityOk_rect {p : Path} {x y w h : ℚ} (hp : arityOk p) : arityOk (p.Rect x y w h) :=
  arityOk_close (arityOk_lineTo (arityOk_lineTo (arityOk_lineTo (arityOk_moveTo hp))))

lemma arityOk_ellipse {p : Path} {x y rx ry : ℚ} (hp : arityOk p) :
    arityOk (p.Ellipse x y rx ry) :=
  arityOk_close (arityOk_arcTo (arityOk_arcTo (arityOk_moveTo hp)))

lemma arityOk_concat (p q : Path) (x0 y0 : ℚ) (hp : arityOk p) (hq : arityOk q) :
    arityOk ⟨p.cmds ++ q.cmds, p.d ++ q.d, x0, y0⟩ := by
  unfold arityOk at *
  simp only [aritySum_append, List.length_append]
  omega

lemma arityOk_append {p q : Path} (hp : arityOk p) (hq : arityOk q) :
    arityOk (p.Append q) := by
  unfold Path.Append
  split
  · exact hp
  · split
    · next hcond =>
      dsimp only
      split
      · rcases hc : q.cmds with _ | ⟨c, t⟩
        · rw [hc] at hcond
          simp at hcond
        · have hcM : c = MoveToCmd := by
            rw [hc] at hcond
            simpa using hcond.2
          have hq2 : aritySum q.cmds = q.d.length := hq
          rw [hc, hcM] at hq2
          simp only [aritySum, List.map_cons, List.sum_cons, PathCmd.Len] at hq2
          simp only [List.drop_succ_cons, List.drop_zero]
          refine arityOk_concat p ⟨t, q.d.drop 2, q.x0, q.y0⟩ _ _ hp ?_
          unfold arityOk
          simp only [List.length_drop]
          unfold aritySum
          omega
      · exact arityOk_concat p q _ _ hp hq
    · exact arityOk_concat p q _ _ hp hq

lemma translateD_length (x y : ℚ) : ∀ (cs : List PathCmd) (d : List ℚ),
    (translateD x y cs d).length = d.length := by
  intro cs d
  induction cs, d using translateD.induct x y <;> simp [translateD, *]

lemma arityOk_translate {p : Path} {x y : ℚ} (hp : arityOk p) : arityOk (p.Translate x y) := by
  unfold Path.Translate Path.Copy
  dsimp only
  split
  · unfold arityOk
    simp only [translateD_length]
    have : aritySum (MoveToCmd :: p.cmds) = 2 + aritySum p.cmds := by
      simp [aritySum, PathCmd.Len]
    unfold arityOk at hp
    simp only [this, List.length_cons]
    omega
  · unfold arityOk
    simp only [translateD_length]
    exact hp

lemma reverseLoop_arityOk (p : Path) : ∀ (k : Nat) (s : RevState), arityOk s.ip →
    arityOk (reverseLoop p k s).ip := by
  intro k
  induction k with
  | zero => intro s h; exact h
  | succ n ih =>
    intro s h
    rw [reverseLoop]
    cases hc : p.cmds.getD n CloseCmd <;> simp only [hc] <;> apply ih <;> dsimp only
    · split <;> split <;>
        first
          | exact arityOk_moveTo (arityOk_close h)
          | exact arityOk_moveTo h
          | exact arityOk_close h
          | exact h
    · split
      · exact arityOk_close h
      · exact arityOk_lineTo h
    · exact arityOk_quadTo h
    · exact arityOk_cubeTo h
    · exact arityOk_arcTo h
    · split
      · exact arityOk_lineTo h
      · exact h

lemma arityOk_empty : arityOk (⟨[], [], 0, 0⟩ : Path) := by decide

lemma arityOk_closeIf (s : RevState) (h : arityOk s.ip) :
    arityOk (if s.closed then s.ip.Close else s.ip) := by
  split
  · exact arityOk_close h
  · exact h

lemma arityOk_reverse (p : Path) : arityOk p.Reverse := by
  unfold Path.Reverse
  split
  · exact arityOk_empty
  · apply arityOk_closeIf
    apply reverseLoop_arityOk
    dsimp only
    split
    · exact arityOk_moveTo arityOk_empty
    · exact arityOk_empty

lemma getD_getElem {α : Type} {cs : List α} {n : Nat} (h : n < cs.length) (x : α) :
    cs[n]? = some (cs.getD n x) := by
  rw [List.getD_eq_getElem?_getD, List.getElem?_eq_getElem h]
  rfl

lemma aritySum_take_succ (cs : List PathCmd) (n : Nat) (h : n < cs.length) (x : PathCmd) :
    aritySum (cs.take (n + 1)) = aritySum (cs.take n) + (cs.getD n x).Len := by
  rw [List.take_succ, getD_getElem h x, aritySum_append]
  simp [aritySum]

lemma take_len_plus_h {α : Type} {l1 : List α} {n : Nat} (h : l1.length = n)
    (l2 : List α) (k : Nat) : (l1 ++ l2).take (n + k) = l1 ++ l2.take k := by
  subst h
  exact take_len_plus l1 l2 k

lemma flattenStep_inv (F : Point → Point → Point → Point → ℚ → ℚ → Path) (tol : ℚ)
    (hF : ∀ a b c d e f, arityOk (F a b c d e f)) (s : FlatState) (h : FlatInv s) :
    FlatInv (flattenStep F tol s) := by
  obtain ⟨h1, h2⟩ := h
  unfold flattenStep
  split
  · next hlt =>
    have hsucc := aritySum_take_succ s.p.cmds s.icmd hlt CloseCmd
    have htot : aritySum s.p.cmds = s.p.d.length := h1
    have htk1 : aritySum (s.p.cmds.take (s.icmd + 1)) ≤ aritySum s.p.cmds :=
      aritySum_take_le _ _
    have htk0 : aritySum (s.p.cmds.take s.icmd) ≤ aritySum s.p.cmds :=
      aritySum_take_le _ _
    have htklen : (s.p.cmds.take s.icmd).length = s.icmd := by
      rw [List.length_take]
      omega
    have hdtklen : (s.p.d.take s.i).length = s.i := by
      rw [List.length_take]
      omega
    cases hc : s.p.cmds.getD s.icmd CloseCmd <;> rw [hc] at hsucc <;>
      simp only [hc, PathCmd.Len] at hsucc ⊢
    case MoveToCmd => exact ⟨h1, by dsimp only; omega⟩
    case LineToCmd => exact ⟨h1, by dsimp only; omega⟩
    case ArcToCmd => exact ⟨h1, by dsimp only; omega⟩
    case CloseCmd => exact ⟨h1, by dsimp only; omega⟩
    case QuadToCmd =>
      have hq := hF s.start
        (s.start.Interpolate ⟨s.p.d.getD s.i 0, s.p.d.getD (s.i + 1) 0⟩ (2 / 3))
        ((⟨s.p.d.getD (s.i + 2) 0, s.p.d.getD (s.i + 3) 0⟩ : Point).Interpolate
          ⟨s.p.d.getD s.i 0, s.p.d.getD (s.i + 1) 0⟩ (2 / 3))
        ⟨s.p.d.getD (s.i + 2) 0, s.p.d.getD (s.i + 3) 0⟩ 0 tol
      unfold arityOk at hq
      refine ⟨?_, ?_⟩
      · dsimp only [Path.replaceCmd]
        unfold arityOk
        simp only [hc, PathCmd.Len, List.append_assoc, aritySum_append, List.length_append]
        rw [aritySum_drop]
        simp only [List.length_take, List.length_drop]
        unfold arityOk at h1
        omega
      · dsimp only [Path.replaceCmd]
        simp only [hc, PathCmd.Len, List.append_assoc]
        rw [take_len_plus_h htklen, take_len_append, aritySum_append]
        omega
    case CubeToCmd =>
      have hq := hF s.start
        ⟨s.p.d.getD s.i 0, s.p.d.getD (s.i + 1) 0⟩
        ⟨s.p.d.getD (s.i + 2) 0, s.p.d.getD (s.i + 3) 0⟩
        ⟨s.p.d.getD (s.i + 4) 0, s.p.d.getD (s.i + 5) 0⟩ 0 tol
      unfold arityOk at hq
      refine ⟨?_, ?_⟩
      · dsimp only [Path.replaceCmd]
        unfold arityOk
        simp only [hc, PathCmd.Len, List.append_assoc, aritySum_append, List.length_append]
        rw [aritySum_drop]
        simp only [List.length_take, List.length_drop]
        unfold arityOk at h1
        omega
      · dsimp only [Path.replaceCmd]
        simp only [hc, PathCmd.Len, List.append_assoc]
        rw [take_len_plus_h htklen, take_len_append, aritySum_append]
        omega
  · exact ⟨h1, h2⟩

lemma flattenSteps_inv (F : Point → Point → Point → Point → ℚ → ℚ → Path) (tol : ℚ)
    (hF : ∀ a b c d e f, arityOk (F a b c d e f)) :
    ∀ (k : Nat) (s : FlatState), FlatInv s → FlatInv (flattenSteps F tol k s) := by
  intro k
  induction k with
  | zero => intro s h; exact h
  | succ n ih => intro s h; exact ih _ (flattenStep_inv F tol hF s h)

lemma splitGo_arityOk (p : Path) (hp : arityOk p) : ∀ q ∈ p.Split, arityOk q := by
  have h := splitGo_main p hp p.cmds 0 0 0 0 false 0 0 rfl (by omega) rfl rfl
  exact h.1

/-- All paths obtainable from the empty path by the public builder methods
and algebra operations of src/path.go, including every intermediate state
of the FlattenBeziers splice loop, relative to a cubic flattening
primitive F. -/

theorem reachable_arityOk (F : Point → Point → Point → Point → ℚ → ℚ → Path)
    (hF : ∀ a b c d e f, arityOk (F a b c d e f)) (p : Path) (h : Reachable F p) :
    arityOk p := by
  induction h with
  | empty => exact arityOk_empty
  | moveTo h x y ih => exact arityOk_moveTo ih
  | lineTo h x y ih => exact arityOk_lineTo ih
  | quadTo h x1 y1 x y ih => exact arityOk_quadTo ih
  | cubeTo h x1 y1 x2 y2 x y ih => exact arityOk_cubeTo ih
  | arcTo h rx ry rot large sweep x y ih => exact arityOk_arcTo ih
  | close h ih => exact arityOk_close ih
  | rect h x y w hh ih => exact arityOk_rect ih
  | ellipse h x y rx ry ih => exact arityOk_ellipse ih
  | copy h ih => exact ih
  | append h1 h2 ih1 ih2 => exact arityOk_append ih1 ih2
  | translate h x y ih => exact arityOk_translate ih
  | split h q hq ih => exact splitGo_arityOk _ ih q hq
  | reverse h ih => exact arityOk_reverse _
  | flattenMid h tolerance k ih =>
    exact (flattenSteps_inv F tolerance hF k ⟨_, 0, 0, ⟨0, 0⟩⟩ ⟨ih, rfl⟩).1
  | flatten h tolerance ih =>
    exact (flattenSteps_inv F tolerance hF _ ⟨_, 0, 0, ⟨0, 0⟩⟩ ⟨ih, rfl⟩).1

/-- Witness for claim C4: a concrete flattener satisfying the contract and
a concrete reachable path for which the invariant holds. -/

theorem reachable_arityOk_witness :
    arityOk ((⟨[], [], 0, 0⟩ : Path).Rect 0 0 1 1) :=
  reachable_arityOk (fun _ _ _ _ _ _ => ⟨[], [], 0, 0⟩) (fun _ _ _ _ _ _ => rfl) _
    (.rect .empty 0 0 1 1)

lemma getD_drop {α : Type} (l : List α) (n k : Nat) (x : α) :
    (l.drop n).getD k x = l.getD (n + k) x := by
  rw [List.getD_eq_getElem?_getD, List.getD_eq_getElem?_getD, List.getElem?_drop]

lemma getD_take_of_lt {α : Type} (l : List α) {n k : Nat} (h : k < n) (x : α) :
    (l.take n).getD k x = l.getD k x := by
  rw [List.getD_eq_getElem?_getD, List.getD_eq_getElem?_getD, List.getElem?_take_of_lt h]

lemma slice_getD {α : Type} (l : List α) (m n k : Nat) (h : k < n - m) (x : α) :
    ((l.drop m).take (n - m)).getD k x = l.getD (m + k) x := by
  rw [getD_take_of_lt _ h, getD_drop]

lemma slice_head {α : Type} (l : List α) (m n : Nat) (h : m < n) :
    ((l.drop m).take (n - m)).head? = l[m]? := by
  rw [List.head?_eq_getElem?, List.getElem?_take_of_lt (by omega), List.getElem?_drop,
    Nat.add_zero]

lemma slice_ne_nil {α : Type} (l : List α) (m n : Nat) (h1 : m < n) (h2 : m < l.length) :
    (l.drop m).take (n - m) ≠ [] := by
  apply List.ne_nil_of_length_pos
  rw [List.length_take, List.length_drop]
  omega

lemma slice_length {α : Type} (l : List α) (m n : Nat) (h1 : m ≤ n) (h2 : n ≤ l.length) :
    ((l.drop m).take (n - m)).length = n - m := by
  rw [List.length_take, List.length_drop]
  omega

lemma slice_last {α : Type} (l : List α) (m n : Nat) (h1 : m < n) (h2 : n ≤ l.length) :
    ((l.drop m).take (n - m)).getLast? = l[n - 1]? := by
  rw [List.getLast?_eq_getElem?, slice_length l m n (by omega) h2,
    List.getElem?_take_of_lt (by omega), List.getElem?_drop]
  congr 1
  omega

lemma aritySum_take_lt (cs : List PathCmd) (m n : Nat) (h1 : m < n) (h2 : m < cs.length) :
    aritySum (cs.take m) < aritySum (cs.take n) := by
  have hs := aritySum_take_slice cs m n (by omega)
  have hpos := aritySum_pos (slice_ne_nil cs m n h1 h2)
  have hmono := aritySum_take_mono cs (show m ≤ n by omega)
  omega

lemma splitGo_bounds (p : Path) :
    ∀ (rest : List PathCmd) (jcmd icmd i j : Nat) (closed : Bool) (x0 y0 : ℚ),
      p.cmds.drop jcmd = rest →
      icmd ≤ jcmd →
      i = aritySum (p.cmds.take icmd) →
      j = aritySum (p.cmds.take jcmd) →
      (closed = true ↔ (icmd < jcmd ∧ p.cmds.getD (jcmd - 1) CloseCmd = CloseCmd)) →
      (∀ k, icmd < k → k < jcmd → p.cmds.getD k CloseCmd ≠ MoveToCmd) →
      (∀ k, icmd ≤ k → k + 1 < jcmd → p.cmds.getD k CloseCmd ≠ CloseCmd) →
      (∀ q ∈ splitGo p rest jcmd icmd i j closed x0 y0, q.cmds ≠ []) ∧
      List.Chain' splitAdj (splitGo p rest jcmd icmd i j closed x0 y0) ∧
      (∀ q ∈ splitGo p rest jcmd icmd i j closed x0 y0, ∀ k, 0 < k →
        q.cmds.getD k CloseCmd ≠ MoveToCmd) ∧
      (∀ q ∈ splitGo p rest jcmd icmd i j closed x0 y0, ∀ k, k + 1 < q.cmds.length →
        q.cmds.getD k CloseCmd ≠ CloseCmd) ∧
      (∀ q, (splitGo p rest jcmd icmd i j closed x0 y0).head? = some q →
        q.cmds.head? = p.cmds[icmd]?) := by
  intro rest
  induction rest with
  | nil =>
    intro jcmd icmd i j closed x0 y0 hdrop hicmd hi hj hclosed hNoM hNoZ
    have hlen : p.cmds.length ≤ jcmd := List.drop_eq_nil_iff.mp hdrop
    rw [splitGo]
    by_cases hlt : i < j
    · have hicmdlen : icmd < p.cmds.length := by
        by_contra hge
        have htk : p.cmds.take icmd = p.cmds := List.take_of_length_le (by omega)
        have h1 : j ≤ aritySum p.cmds := by
          rw [hj]; exact aritySum_take_le _ _
        rw [hi, htk] at hlt
        omega
      rw [if_pos hlt]
      refine ⟨?_, List.chain'_singleton _, ?_, ?_, ?_⟩
      · intro q hq
        rw [List.mem_singleton] at hq
        subst hq
        exact slice_ne_nil _ _ _ (by omega) hicmdlen
      · intro q hq
        rw [List.mem_singleton] at hq
        subst hq
        intro k hk
        by_cases hin : k < jcmd - icmd
        · rw [slice_getD _ _ _ _ hin]
          by_cases hin2 : icmd + k < p.cmds.length
          · exact hNoM (icmd + k) (by omega) (by omega)
          · rw [List.getD_eq_default _ _ (by omega)]
            simp
        · rw [List.getD_eq_default]
          · simp
          · rw [List.length_take, List.length_drop]
            omega
      · intro q hq
        rw [List.mem_singleton] at hq
        subst hq
        intro k hk
        rw [List.length_take, List.length_drop] at hk
        rw [slice_getD _ _ _ _ (by omega)]
        exact hNoZ (icmd + k) (by omega) (by omega)
      · intro q hq
        rw [List.head?_cons, Option.some.injEq] at hq
        subst hq
        exact slice_head _ _ _ (by omega)
    · rw [if_neg hlt]
      refine ⟨?_, List.chain'_nil, ?_, ?_, ?_⟩ <;> (intro q hq; simp at hq)
  | cons cmd rest2 ih =>
    intro jcmd icmd i j closed x0 y0 hdrop hicmd hi hj hclosed hNoM hNoZ
    have hjlt : jcmd < p.cmds.length := by
      by_contra hle
      rw [List.drop_eq_nil_of_le (by omega)] at hdrop
      exact List.noConfusion hdrop
    have hcmd : p.cmds[jcmd]? = some cmd := getElem?_of_drop hdrop
    have hgetD : p.cmds.getD jcmd CloseCmd = cmd := by
      rw [List.getD_eq_getElem?_getD, hcmd]
      rfl
    have hrest2 : p.cmds.drop (jcmd + 1) = rest2 := by
      have h1 : (p.cmds.drop jcmd).drop 1 = p.cmds.drop (jcmd + 1) := by
        rw [List.drop_drop]
      rw [← h1, hdrop]
      rfl
    have htake1 : p.cmds.take (jcmd + 1) = p.cmds.take jcmd ++ [cmd] := by
      rw [List.take_succ, hcmd]
      rfl
    have hj1 : aritySum (p.cmds.take (jcmd + 1)) = j + cmd.Len := by
      rw [htake1, aritySum_append, hj]
      simp [aritySum]
    have heqij : icmd = jcmd → i = j := by
      intro he
      rw [hi, hj, he]
    have hfragfacts : icmd < jcmd →
        ((p.cmds.drop icmd).take (jcmd - icmd) ≠ [] ∧
         (∀ k, 0 < k → ((p.cmds.drop icmd).take (jcmd - icmd)).getD k CloseCmd ≠ MoveToCmd) ∧
         (∀ k, k + 1 < ((p.cmds.drop icmd).take (jcmd - icmd)).length →
            ((p.cmds.drop icmd).take (jcmd - icmd)).getD k CloseCmd ≠ CloseCmd) ∧
         ((p.cmds.drop icmd).take (jcmd - icmd)).head? = p.cmds[icmd]?) := by
      intro hlt2
      refine ⟨slice_ne_nil _ _ _ hlt2 (by omega), ?_, ?_, slice_head _ _ _ hlt2⟩
      · intro k hk
        by_cases hin : k < jcmd - icmd
        · rw [slice_getD _ _ _ _ hin]
          exact hNoM (icmd + k) (by omega) (by omega)
        · rw [List.getD_eq_default]
          · simp
          · rw [List.length_take, List.length_drop]
            omega
      · intro k hk
        rw [slice_length _ _ _ (by omega) (by omega)] at hk
        rw [slice_getD _ _ _ _ (by omega)]
        exact hNoZ (icmd + k) (by omega) (by omega)
    have hfraglast : icmd < jcmd → p.cmds.getD (jcmd - 1) CloseCmd = CloseCmd →
        ((p.cmds.drop icmd).take (jcmd - icmd)).getLast? = some CloseCmd := by
      intro hlt2 hz
      rw [slice_last _ _ _ hlt2 (by omega)]
      rw [getD_getElem (show jcmd - 1 < p.cmds.length by omega) CloseCmd, hz]
    cases cmd with
    | MoveToCmd =>
      simp only [splitGo, Bool.or_eq_true, Bool.and_eq_true, decide_eq_true_eq, reduceCtorEq,
        eq_self_iff_true, and_true, and_false, false_and, false_or]
      by_cases hP : i < j ∨ closed = true
      · have hltij : icmd < jcmd := by
          rcases hP with hij2 | hcl
          · by_contra hge
            have he : icmd = jcmd := by omega
            have := heqij he
            omega
          · exact (hclosed.mp hcl).1
        simp only [if_pos hP, List.singleton_append]
        obtain ⟨f1, f2, f3, f4⟩ := hfragfacts hltij
        obtain ⟨r1, r2, r3, r4, r5⟩ := ih (jcmd + 1) jcmd j (j + 2) false (p.d.getD j 0) (p.d.getD (j + 1) 0)
          hrest2 (by omega) hj (by rw [hj1]; rfl)
          (by simp only [Nat.add_sub_cancel, hgetD]
              simp)
          (by intro k hk1 hk2; omega)
          (by intro k hk1 hk2; omega)
        refine ⟨?_, ?_, ?_, ?_, ?_⟩
        · intro q hq
          rw [List.mem_cons] at hq
          rcases hq with hq | hq
          · subst hq
            exact f1
          · exact r1 q hq
        · rw [List.chain'_cons']
          refine ⟨?_, r2⟩
          intro y hy
          have hhead := r5 y (Option.mem_def.mp hy)
          rcases hP with hij2 | hcl
          · left
            rw [hhead, hcmd]
          · right
            rw [hfraglast hltij (hclosed.mp hcl).2]
        · intro q hq
          rw [List.mem_cons] at hq
          rcases hq with hq | hq
          · subst hq
            exact f2
          · exact r3 q hq
        · intro q hq
          rw [List.mem_cons] at hq
          rcases hq with hq | hq
          · subst hq
            exact f3
          · exact r4 q hq
        · intro q hq
          rw [List.head?_cons, Option.some.injEq] at hq
          subst hq
          exact f4
      · have hclosedF : closed = false := by
          cases closed
          · rfl
          · exact absurd (Or.inr rfl) hP
        simp only [if_neg hP, List.nil_append]
        exact ih (jcmd + 1) icmd i (j + 2) closed (p.d.getD j 0) (p.d.getD (j + 1) 0)
          hrest2 (by omega) hi (by rw [hj1]; rfl)
          (by simp only [Nat.add_sub_cancel, hgetD, hclosedF]
              simp)
          (by intro k hk1 hk2
              by_cases hkj : k < jcmd
              · exact hNoM k hk1 hkj
              · rw [show k = jcmd by omega, hgetD]
                have hnij : ¬ i < j := fun hij3 => hP (Or.inl hij3)
                have he2 : icmd < jcmd → i < j := by
                  intro hlt3
                  rw [hi, hj]
                  exact aritySum_take_lt p.cmds icmd jcmd hlt3 (by omega)
                have hee : icmd = jcmd := by
                  by_contra hne2
                  exact hnij (he2 (by omega))
                omega)
          (by intro k hk1 hk2
              by_cases hkj : k + 1 < jcmd
              · exact hNoZ k hk1 hkj
              · intro hzz
                have hcl := hclosed.mpr ⟨by omega, by rw [show jcmd - 1 = k by omega]; exact hzz⟩
                rw [hclosedF] at hcl
                exact Bool.noConfusion hcl)
    | LineToCmd =>
      simp only [splitGo, Bool.or_eq_true, Bool.and_eq_true, decide_eq_true_eq, reduceCtorEq,
        eq_self_iff_true, and_true, and_false, false_and, false_or]
      by_cases hP : closed = true
      · have hltij : icmd < jcmd := by
          exact (hclosed.mp hP).1
        simp only [if_pos hP, List.singleton_append]
        obtain ⟨f1, f2, f3, f4⟩ := hfragfacts hltij
        obtain ⟨r1, r2, r3, r4, r5⟩ := ih (jcmd + 1) jcmd j (j + 2) false x0 y0
          hrest2 (by omega) hj (by rw [hj1]; rfl)
          (by simp only [Nat.add_sub_cancel, hgetD]
              simp)
          (by intro k hk1 hk2; omega)
          (by intro k hk1 hk2; omega)
        refine ⟨?_, ?_, ?_, ?_, ?_⟩
        · intro q hq
          rw [List.mem_cons] at hq
          rcases hq with hq | hq
          · subst hq
            exact f1
          · exact r1 q hq
        · rw [List.chain'_cons']
          refine ⟨?_, r2⟩
          intro y hy
          have hhead := r5 y (Option.mem_def.mp hy)
          right
          rw [hfraglast hltij (hclosed.mp hP).2]
        · intro q hq
          rw [List.mem_cons] at hq
          rcases hq with hq | hq
          · subst hq
            exact f2
          · exact r3 q hq
        · intro q hq
          rw [List.mem_cons] at hq
          rcases hq with hq | hq
          · subst hq
            exact f3
          · exact r4 q hq
        · intro q hq
          rw [List.head?_cons, Option.some.injEq] at hq
          subst hq
          exact f4
      · have hclosedF : closed = false := by
          cases closed
          · rfl
          · exact absurd rfl hP
        simp only [if_neg hP, List.nil_append]
        exact ih (jcmd + 1) icmd i (j + 2) closed x0 y0
          hrest2 (by omega) hi (by rw [hj1]; rfl)
          (by simp only [Nat.add_sub_cancel, hgetD, hclosedF]
              simp)
          (by intro k hk1 hk2
              by_cases hkj : k < jcmd
              · exact hNoM k hk1 hkj
              · rw [show k = jcmd by omega, hgetD]
                simp)
          (by intro k hk1 hk2
              by_cases hkj : k + 1 < jcmd
              · exact hNoZ k hk1 hkj
              · intro hzz
                have hcl := hclosed.mpr ⟨by omega, by rw [show jcmd - 1 = k by omega]; exact hzz⟩
                rw [hclosedF] at hcl
                exact Bool.noConfusion hcl)
    | QuadToCmd =>
      simp only [splitGo, Bool.or_eq_true, Bool.and_eq_true, decide_eq_true_eq, reduceCtorEq,
        eq_self_iff_true, and_true, and_false, false_and, false_or]
      by_cases hP : closed = true
      · have hltij : icmd < jcmd := by
          exact (hclosed.mp hP).1
        simp only [if_pos hP, List.singleton_append]
        obtain ⟨f1, f2, f3, f4⟩ := hfragfacts hltij
        obtain ⟨r1, r2, r3, r4, r5⟩ := ih (jcmd + 1) jcmd j (j + 4) false x0 y0
          hrest2 (by omega) hj (by rw [hj1]; rfl)
          (by simp only [Nat.add_sub_cancel, hgetD]
              simp)
          (by intro k hk1 hk2; omega)
          (by intro k hk1 hk2; omega)
        refine ⟨?_, ?_, ?_, ?_, ?_⟩
        · intro q hq
          rw [List.mem_cons] at hq
          rcases hq with hq | hq
          · subst hq
            exact f1
          · exact r1 q hq
        · rw [List.chain'_cons']
          refine ⟨?_, r2⟩
          intro y hy
          have hhead := r5 y (Option.mem_def.mp hy)
          right
          rw [hfraglast hltij (hclosed.mp hP).2]
        · intro q hq
          rw [List.mem_cons] at hq
          rcases hq with hq | hq
          · subst hq
            exact f2
          · exact r3 q hq
        · intro q hq
          rw [List.mem_cons] at hq
          rcases hq with hq | hq
          · subst hq
            exact f3
          · exact r4 q hq
        · intro q hq
          rw [List.head?_cons, Option.some.injEq] at hq
          subst hq
          exact f4
      · have hclosedF : closed = false := by
          cases closed
          · rfl
          · exact absurd rfl hP
        simp only [if_neg hP, List.nil_append]
        exact ih (jcmd + 1) icmd i (j + 4) closed x0 y0
          hrest2 (by omega) hi (by rw [hj1]; rfl)
          (by simp only [Nat.add_sub_cancel, hgetD, hclosedF]
              simp)
          (by intro k hk1 hk2
              by_cases hkj : k < jcmd
              · exact hNoM k hk1 hkj
              · rw [show k = jcmd by omega, hgetD]
                simp)
          (by intro k hk1 hk2
              by_cases hkj : k + 1 < jcmd
              · exact hNoZ k hk1 hkj
              · intro hzz
                have hcl := hclosed.mpr ⟨by omega, by rw [show jcmd - 1 = k by omega]; exact hzz⟩
                rw [hclosedF] at hcl
                exact Bool.noConfusion hcl)
    | CubeToCmd =>
      simp only [splitGo, Bool.or_eq_true, Bool.and_eq_true, decide_eq_true_eq, reduceCtorEq,
        eq_self_iff_true, and_true, and_false, false_and, false_or]
      by_cases hP : closed = true
      · have hltij : icmd < jcmd := by
          exact (hclosed.mp hP).1
        simp only [if_pos hP, List.singleton_append]
        obtain ⟨f1, f2, f3, f4⟩ := hfragfacts hltij
        obtain ⟨r1, r2, r3, r4, r5⟩ := ih (jcmd + 1) jcmd j (j + 6) false x0 y0
          hrest2 (by omega) hj (by rw [hj1]; rfl)
          (by simp only [Nat.add_sub_cancel, hgetD]
              simp)
          (by intro k hk1 hk2; omega)
          (by intro k hk1 hk2; omega)
        refine ⟨?_, ?_, ?_, ?_, ?_⟩
        · intro q hq
          rw [List.mem_cons] at hq
          rcases hq with hq | hq
          · subst hq
            exact f1
          · exact r1 q hq
        · rw [List.chain'_cons']
          refine ⟨?_, r2⟩
          intro y hy
          have hhead := r5 y (Option.mem_def.mp hy)
          right
          rw [hfraglast hltij (hclosed.mp hP).2]
        · intro q hq
          rw [List.mem_cons] at hq
          rcases hq with hq | hq
          · subst hq
            exact f2
          · exact r3 q hq
        · intro q hq
          rw [List.mem_cons] at hq
          rcases hq with hq | hq
          · subst hq
            exact f3
          · exact r4 q hq
        · intro q hq
          rw [List.head?_cons, Option.some.injEq] at hq
          subst hq
          exact f4
      · have hclosedF : closed = false := by
          cases closed
          · rfl
          · exact absurd rfl hP
        simp only [if_neg hP, List.nil_append]
        exact ih (jcmd + 1) icmd i (j + 6) closed x0 y0
          hrest2 (by omega) hi (by rw [hj1]; rfl)
          (by simp only [Nat.add_sub_cancel, hgetD, hclosedF]
              simp)
          (by intro k hk1 hk2
              by_cases hkj : k < jcmd
              · exact hNoM k hk1 hkj
              · rw [show k = jcmd by omega, hgetD]
                simp)
          (by intro k hk1 hk2
              by_cases hkj : k + 1 < jcmd
              · exact hNoZ k hk1 hkj
              · intro hzz
                have hcl := hclosed.mpr ⟨by omega, by rw [show jcmd - 1 = k by omega]; exact hzz⟩
                rw [hclosedF] at hcl
                exact Bool.noConfusion hcl)
    | ArcToCmd =>
      simp only [splitGo, Bool.or_eq_true, Bool.and_eq_true, decide_eq_true_eq, reduceCtorEq,
        eq_self_iff_true, and_true, and_false, false_and, false_or]
      by_cases hP : closed = true
      · have hltij : icmd < jcmd := by
          exact (hclosed.mp hP).1
        simp only [if_pos hP, List.singleton_append]
        obtain ⟨f1, f2, f3, f4⟩ := hfragfacts hltij
        obtain ⟨r1, r2, r3, r4, r5⟩ := ih (jcmd + 1) jcmd j (j + 7) false x0 y0
          hrest2 (by omega) hj (by rw [hj1]; rfl)
          (by simp only [Nat.add_sub_cancel, hgetD]
              simp)
          (by intro k hk1 hk2; omega)
          (by intro k hk1 hk2; omega)
        refine ⟨?_, ?_, ?_, ?_, ?_⟩
        · intro q hq
          rw [List.mem_cons] at hq
          rcases hq with hq | hq
          · subst hq
            exact f1
          · exact r1 q hq
        · rw [List.chain'_cons']
          refine ⟨?_, r2⟩
          intro y hy
          have hhead := r5 y (Option.mem_def.mp hy)
          right
          rw [hfraglast hltij (hclosed.mp hP).2]
        · intro q hq
          rw [List.mem_cons] at hq
          rcases hq with hq | hq
          · subst hq
            exact f2
          · exact r3 q hq
        · intro q hq
          rw [List.mem_cons] at hq
          rcases hq with hq | hq
          · subst hq
            exact f3
          · exact r4 q hq
        · intro q hq
          rw [List.head?_cons, Option.some.injEq] at hq
          subst hq
          exact f4
      · have hclosedF : closed = false := by
          cases closed
          · rfl
          · exact absurd rfl hP
        simp only [if_neg hP, List.nil_append]
        exact ih (jcmd + 1) icmd i (j + 7) closed x0 y0
          hrest2 (by omega) hi (by rw [hj1]; rfl)
          (by simp only [Nat.add_sub_cancel, hgetD, hclosedF]
              simp)
          (by intro k hk1 hk2
              by_cases hkj : k < jcmd
              · exact hNoM k hk1 hkj
              · rw [show k = jcmd by omega, hgetD]
                simp)
          (by intro k hk1 hk2
              by_cases hkj : k + 1 < jcmd
              · exact hNoZ k hk1 hkj
              · intro hzz
                have hcl := hclosed.mpr ⟨by omega, by rw [show jcmd - 1 = k by omega]; exact hzz⟩
                rw [hclosedF] at hcl
                exact Bool.noConfusion hcl)
    | CloseCmd =>
      simp only [splitGo, Bool.or_eq_true, Bool.and_eq_true, decide_eq_true_eq, reduceCtorEq,
        eq_self_iff_true, and_true, and_false, false_and, false_or]
      by_cases hP : closed = true
      · have hltij : icmd < jcmd := by
          exact (hclosed.mp hP).1
        simp only [if_pos hP, List.singleton_append]
        obtain ⟨f1, f2, f3, f4⟩ := hfragfacts hltij
        obtain ⟨r1, r2, r3, r4, r5⟩ := ih (jcmd + 1) jcmd j (j + 2) true x0 y0
          hrest2 (by omega) hj (by rw [hj1]; rfl)
          (by simp only [Nat.add_sub_cancel, hgetD]
              simp)
          (by intro k hk1 hk2; omega)
          (by intro k hk1 hk2; omega)
        refine ⟨?_, ?_, ?_, ?_, ?_⟩
        · intro q hq
          rw [List.mem_cons] at hq
          rcases hq with hq | hq
          · subst hq
            exact f1
          · exact r1 q hq
        · rw [List.chain'_cons']
          refine ⟨?_, r2⟩
          intro y hy
          have hhead := r5 y (Option.mem_def.mp hy)
          right
          rw [hfraglast hltij (hclosed.mp hP).2]
        · intro q hq
          rw [List.mem_cons] at hq
          rcases hq with hq | hq
          · subst hq
            exact f2
          · exact r3 q hq
        · intro q hq
          rw [List.mem_cons] at hq
          rcases hq with hq | hq
          · subst hq
            exact f3
          · exact r4 q hq
        · intro q hq
          rw [List.head?_cons, Option.some.injEq] at hq
          subst hq
          exact f4
      · have hclosedF : closed = false := by
          cases closed
          · rfl
          · exact absurd rfl hP
        simp only [if_neg hP, List.nil_append]
        exact ih (jcmd + 1) icmd i (j + 2) true x0 y0
          hrest2 (by omega) hi (by rw [hj1]; rfl)
          (by simp only [Nat.add_sub_cancel, hgetD]
              simp
              omega)
          (by intro k hk1 hk2
              by_cases hkj : k < jcmd
              · exact hNoM k hk1 hkj
              · rw [show k = jcmd by omega, hgetD]
                simp)
          (by intro k hk1 hk2
              by_cases hkj : k + 1 < jcmd
              · exact hNoZ k hk1 hkj
              · intro hzz
                have hcl := hclosed.mpr ⟨by omega, by rw [show jcmd - 1 = k by omega]; exact hzz⟩
                rw [hclosedF] at hcl
                exact Bool.noConfusion hcl)

/-- Claim C6 (confirmed): for every path satisfying the arity invariant,
concatenating the command and coordinate sequences of the fragments of
Split, in order, reproduces exactly the full command sequence and
coordinate buffer; and the boundaries sit exactly where the claim says:
every fragment is nonempty, a MoveTo occurs only at the start of a
fragment, a Close occurs only as the last command of a fragment (so a
Close followed by more commands always ends its fragment), and two
adjacent fragments meet only where the second starts with MoveTo or the
first ends with Close. -/
theorem split_concat_boundaries (p : Path) (h : arityOk p) :
    ((p.Split.map Path.cmds).flatten = p.cmds ∧ (p.Split.map Path.d).flatten = p.d) ∧
    (∀ q ∈ p.Split, q.cmds ≠ []) ∧
    List.Chain' splitAdj p.Split ∧
    (∀ q ∈ p.Split, ∀ k, 0 < k → q.cmds.getD k CloseCmd ≠ MoveToCmd) ∧
    (∀ q ∈ p.Split, ∀ k, k + 1 < q.cmds.length → q.cmds.getD k CloseCmd ≠ CloseCmd) := by
  have hA := splitGo_main p h p.cmds 0 0 0 0 false 0 0 rfl (by omega) rfl rfl
  have hB := splitGo_bounds p p.cmds 0 0 0 0 false 0 0 rfl (by omega) rfl rfl
    (by simp) (by intro k h1 h2; omega) (by intro k h1 h2; omega)
  unfold Path.Split
  refine ⟨⟨?_, ?_⟩, hB.1, hB.2.1, hB.2.2.1, hB.2.2.2.1⟩
  · have h2 := hA.2.1
    rwa [List.drop_zero] at h2
  · have h3 := hA.2.2
    rwa [List.drop_zero] at h3

/-- Witness for claim C6: the hypothesis holds and the conclusion follows
at a concrete path with two fragments. -/
theorem split_concat_boundaries_witness :
    arityOk (((emptyPath.MoveTo 1 1).LineTo 2 2).Close.LineTo 3 3) ∧
    ((((((emptyPath.MoveTo 1 1).LineTo 2 2).Close.LineTo 3 3).Split.map Path.cmds).flatten =
        (((emptyPath.MoveTo 1 1).LineTo 2 2).Close.LineTo 3 3).cmds ∧
      ((((emptyPath.MoveTo 1 1).LineTo 2 2).Close.LineTo 3 3).Split.map Path.d).flatten =
        (((emptyPath.MoveTo 1 1).LineTo 2 2).Close.LineTo 3 3).d) ∧
    (∀ q ∈ (((emptyPath.MoveTo 1 1).LineTo 2 2).Close.LineTo 3 3).Split, q.cmds ≠ []) ∧
    List.Chain' splitAdj (((emptyPath.MoveTo 1 1).LineTo 2 2).Close.LineTo 3 3).Split ∧
    (∀ q ∈ (((emptyPath.MoveTo 1 1).LineTo 2 2).Close.LineTo 3 3).Split, ∀ k, 0 < k →
      q.cmds.getD k CloseCmd ≠ MoveToCmd) ∧
    (∀ q ∈ (((emptyPath.MoveTo 1 1).LineTo 2 2).Close.LineTo 3 3).Split, ∀ k,
      k + 1 < q.cmds.length → q.cmds.getD k CloseCmd ≠ CloseCmd)) :=
  ⟨by decide, split_concat_boundaries (((emptyPath.MoveTo 1 1).LineTo 2 2).Close.LineTo 3 3)
    (by decide)⟩

end Canvas
